import Mathlib

/-!
Verification model of the minidav WebDAV server.

The definitions below are a shallow embedding of the TypeScript sources:
`src/webdav/lock-manager.ts` (class LockManager) and the WebDAV method
engine (class WebDAVServer).  JavaScript `Map` objects are modelled as
association lists with `Map.set` replace-or-append semantics, JavaScript
`Set` objects as lists in insertion order, strings as Lean strings whose
character lists are manipulated by explicit recursive functions mirroring
the JavaScript string operations used by the source, and wall-clock time
as a natural number of milliseconds passed explicitly to each operation.
-/

namespace Minidav

/-! ## Association lists (JavaScript `Map` model) -/

/-- Lookup in an association list, first binding wins (JS `Map.get`). -/
def lookupA {α : Type} : List (String × α) → String → Option α
  | [], _ => none
  | (k, v) :: rest, key => if k = key then some v else lookupA rest key

/-- Replace-or-append insertion (JS `Map.set`): an existing key is
overwritten in place, a new key is appended at the end. -/
def insertA {α : Type} : List (String × α) → String → α → List (String × α)
  | [], k, v => [(k, v)]
  | (k', v') :: rest, k, v =>
    if k' = k then (k, v) :: rest else (k', v') :: insertA rest k v

/-- Deletion (JS `Map.delete`): removes the first binding of the key. -/
def eraseA {α : Type} : List (String × α) → String → List (String × α)
  | [], _ => []
  | (k', v') :: rest, k =>
    if k' = k then rest else (k', v') :: eraseA rest k

/-- The keys of an association list. -/
def keysA {α : Type} (m : List (String × α)) : List String :=
  m.map Prod.fst

/-- Key distinctness: every JS `Map` satisfies this by construction. -/
def KeysND {α : Type} (m : List (String × α)) : Prop :=
  (keysA m).Nodup

@[simp] theorem lookupA_nil {α : Type} (k : String) :
    lookupA ([] : List (String × α)) k = none := rfl

@[simp] theorem lookupA_cons {α : Type} (k' : String) (v' : α) (rest : List (String × α))
    (k : String) :
    lookupA ((k', v') :: rest) k = if k' = k then some v' else lookupA rest k := rfl

@[simp] theorem keysA_nil {α : Type} : keysA ([] : List (String × α)) = [] := rfl

@[simp] theorem keysA_cons {α : Type} (k : String) (v : α) (tl : List (String × α)) :
    keysA ((k, v) :: tl) = k :: keysA tl := rfl

theorem lookupA_insertA {α : Type} (m : List (String × α)) (k : String) (v : α) (k' : String) :
    lookupA (insertA m k v) k' = if k = k' then some v else lookupA m k' := by
  induction m with
  | nil => simp [insertA, lookupA]
  | cons hd tl ih =>
    obtain ⟨k₀, v₀⟩ := hd
    by_cases h₀ : k₀ = k
    · subst h₀
      by_cases h₁ : k₀ = k'
      · subst h₁; simp [insertA, lookupA]
      · simp [insertA, lookupA, h₁]
    · by_cases h₁ : k₀ = k'
      · subst h₁
        have hne : ¬ k = k₀ := fun h => h₀ h.symm
        simp [insertA, h₀, lookupA, hne]
      · simp [insertA, h₀, lookupA, h₁, ih]

theorem mem_keysA_iff_lookupA {α : Type} (m : List (String × α)) (k : String) :
    k ∈ keysA m ↔ (lookupA m k).isSome := by
  induction m with
  | nil => simp
  | cons hd tl ih =>
    obtain ⟨k₀, v₀⟩ := hd
    simp only [keysA_cons, List.mem_cons, lookupA_cons]
    by_cases h₀ : k₀ = k
    · subst h₀; simp
    · rw [if_neg h₀, ← ih]
      constructor
      · rintro (h | h)
        · exact absurd h.symm h₀
        · exact h
      · exact Or.inr

theorem lookupA_eq_none_of_not_mem_keysA {α : Type} (m : List (String × α)) (k : String)
    (h : k ∉ keysA m) : lookupA m k = none := by
  rcases hl : lookupA m k with _ | v
  · rfl
  · exact absurd ((mem_keysA_iff_lookupA m k).mpr (by simp [hl])) h

theorem lookupA_eraseA_self {α : Type} (m : List (String × α)) (k : String)
    (hnd : KeysND m) : lookupA (eraseA m k) k = none := by
  induction m with
  | nil => simp [eraseA]
  | cons hd tl ih =>
    obtain ⟨k₀, v₀⟩ := hd
    simp only [KeysND, keysA_cons, List.nodup_cons] at hnd
    by_cases h₀ : k₀ = k
    · subst h₀
      simp only [eraseA, if_pos rfl]
      exact lookupA_eq_none_of_not_mem_keysA tl k₀ hnd.1
    · simp only [eraseA, if_neg h₀, lookupA_cons, if_neg h₀]
      exact ih hnd.2

theorem lookupA_eraseA_ne {α : Type} (m : List (String × α)) (k k' : String)
    (h : k ≠ k') : lookupA (eraseA m k) k' = lookupA m k' := by
  induction m with
  | nil => simp [eraseA]
  | cons hd tl ih =>
    obtain ⟨k₀, v₀⟩ := hd
    by_cases h₀ : k₀ = k
    · subst h₀
      have hne : ¬ k₀ = k' := fun hh => h hh
      simp [eraseA, lookupA, hne]
    · simp [eraseA, h₀, lookupA, ih]

theorem keysA_insertA_of_mem {α : Type} (m : List (String × α)) (k : String) (v : α)
    (h : (lookupA m k).isSome) : keysA (insertA m k v) = keysA m := by
  induction m with
  | nil => simp [lookupA] at h
  | cons hd tl ih =>
    obtain ⟨k₀, v₀⟩ := hd
    by_cases h₀ : k₀ = k
    · subst h₀; simp [insertA]
    · simp only [lookupA_cons, if_neg h₀] at h
      simp only [insertA, if_neg h₀, keysA_cons, ih h]

theorem keysA_insertA_of_not_mem {α : Type} (m : List (String × α)) (k : String) (v : α)
    (h : lookupA m k = none) : keysA (insertA m k v) = keysA m ++ [k] := by
  induction m with
  | nil => simp [insertA]
  | cons hd tl ih =>
    obtain ⟨k₀, v₀⟩ := hd
    by_cases h₀ : k₀ = k
    · subst h₀; simp [lookupA] at h
    · simp only [lookupA_cons, if_neg h₀] at h
      simp only [insertA, if_neg h₀, keysA_cons, ih h, List.cons_append]

theorem keysND_insertA {α : Type} (m : List (String × α)) (k : String) (v : α)
    (hnd : KeysND m) : KeysND (insertA m k v) := by
  cases h : lookupA m k with
  | some v' =>
    have := keysA_insertA_of_mem m k v (by simp [h])
    simpa [KeysND, this] using hnd
  | none =>
    have heq := keysA_insertA_of_not_mem m k v h
    simp only [KeysND, heq, List.nodup_append, List.nodup_singleton]
    refine ⟨hnd, trivial, ?_⟩
    intro x hx
    simp only [List.mem_singleton]
    intro hxk
    subst hxk
    rw [mem_keysA_iff_lookupA, h] at hx
    simp at hx

theorem keysA_eraseA_sublist {α : Type} (m : List (String × α)) (k : String) :
    (keysA (eraseA m k)).Sublist (keysA m) := by
  induction m with
  | nil => simp [eraseA]
  | cons hd tl ih =>
    obtain ⟨k₀, v₀⟩ := hd
    by_cases h₀ : k₀ = k
    · subst h₀
      simp only [eraseA, if_pos rfl, keysA_cons]
      exact List.sublist_cons_self _ _
    · simpa [eraseA, h₀] using ih.cons₂ k₀

theorem keysND_eraseA {α : Type} (m : List (String × α)) (k : String)
    (hnd : KeysND m) : KeysND (eraseA m k) :=
  (keysA_eraseA_sublist m k).nodup hnd

/-! ## Character-list helpers (JavaScript string operations) -/

/-- JavaScript `str.split('/')` on a character list: the list of pieces
between slashes, empty pieces included (`''.split('/') = ['']`). -/
def splitCh : List Char → List (List Char)
  | [] => [[]]
  | c :: rest =>
    if c = '/' then [] :: splitCh rest
    else
      match splitCh rest with
      | [] => [[c]]
      | p :: ps => (c :: p) :: ps

/-- JavaScript `arr.join('/')` on character-list pieces. -/
def joinCh : List (List Char) → List Char
  | [] => []
  | [p] => p
  | p :: ps => p ++ '/' :: joinCh ps

/-- Boolean list prefix test (JavaScript `str.startsWith(pre)`). -/
def listPre {α : Type} [DecidableEq α] : List α → List α → Bool
  | [], _ => true
  | _, [] => false
  | a :: as, b :: bs => a = b && listPre as bs

/-- Whether `pat` occurs as a contiguous subsequence of `l`
(JavaScript `str.includes(pat)`). -/
def containsSeq {α : Type} [DecidableEq α] (pat : List α) : List α → Bool
  | [] => listPre pat []
  | c :: rest => listPre pat (c :: rest) || containsSeq pat rest

@[simp] theorem splitCh_nil : splitCh [] = [[]] := rfl

theorem splitCh_ne_nil (l : List Char) : splitCh l ≠ [] := by
  induction l with
  | nil => simp
  | cons c rest ih =>
    by_cases hc : c = '/'
    · simp [splitCh, hc]
    · simp only [splitCh, if_neg hc]
      rcases h : splitCh rest with _ | ⟨p, ps⟩
      · simp
      · simp

theorem joinCh_splitCh (l : List Char) : joinCh (splitCh l) = l := by
  induction l with
  | nil => rfl
  | cons c rest ih =>
    by_cases hc : c = '/'
    · subst hc
      simp only [splitCh, if_pos rfl]
      rcases h : splitCh rest with _ | ⟨p, ps⟩
      · exact absurd h (splitCh_ne_nil rest)
      · rw [h] at ih
        simp [joinCh, ih]
    · simp only [splitCh, if_neg hc]
      rcases h : splitCh rest with _ | ⟨p, ps⟩
      · exact absurd h (splitCh_ne_nil rest)
      · rw [h] at ih
        rcases ps with _ | ⟨q, qs⟩
        · simp only [joinCh] at ih ⊢
          rw [ih]
        · simp only [joinCh] at ih ⊢
          rw [List.cons_append, ih]

theorem not_slash_mem_splitCh (l : List Char) (p : List Char) (hp : p ∈ splitCh l) :
    '/' ∉ p := by
  induction l generalizing p with
  | nil =>
    simp only [splitCh_nil, List.mem_singleton] at hp
    subst hp; simp
  | cons c rest ih =>
    by_cases hc : c = '/'
    · simp only [splitCh, if_pos hc, List.mem_cons] at hp
      rcases hp with hp | hp
      · subst hp; simp
      · exact ih p hp
    · simp only [splitCh, if_neg hc] at hp
      rcases h : splitCh rest with _ | ⟨q, qs⟩
      · exact absurd h (splitCh_ne_nil rest)
      · rw [h] at hp
        simp only [List.mem_cons] at hp
        rcases hp with hp | hp
        · subst hp
          intro hm
          rcases List.mem_cons.mp hm with hm | hm
          · exact hc hm.symm
          · exact ih q (h ▸ List.mem_cons_self q qs) hm
        · exact ih p (h ▸ List.mem_cons_of_mem q hp)

theorem splitCh_append_slash (l r : List Char) (hl : '/' ∉ l) :
    splitCh (l ++ '/' :: r) = l :: splitCh r := by
  induction l with
  | nil => simp [splitCh]
  | cons c cs ih =>
    have hc : c ≠ '/' := fun h => hl (h ▸ List.mem_cons_self c cs)
    have hcs : '/' ∉ cs := fun h => hl (List.mem_cons_of_mem c h)
    simp only [List.cons_append, splitCh, if_neg hc]
    rw [show cs.append ('/' :: r) = cs ++ '/' :: r from rfl, ih hcs]

theorem splitCh_no_slash (l : List Char) (hl : '/' ∉ l) : splitCh l = [l] := by
  induction l with
  | nil => rfl
  | cons c cs ih =>
    have hc : c ≠ '/' := fun h => hl (h ▸ List.mem_cons_self c cs)
    have hcs : '/' ∉ cs := fun h => hl (List.mem_cons_of_mem c h)
    simp [splitCh, hc, ih hcs]

/-- A list of pieces, each free of `'/'`, splits back to itself after
joining (the pieces list must be nonempty). -/
theorem splitCh_joinCh (ps : List (List Char)) (hne : ps ≠ [])
    (hs : ∀ p ∈ ps, '/' ∉ p) : splitCh (joinCh ps) = ps := by
  induction ps with
  | nil => exact absurd rfl hne
  | cons p ps ih =>
    rcases ps with _ | ⟨q, qs⟩
    · simp only [joinCh]
      exact splitCh_no_slash p (hs p (List.mem_cons_self p []))
    · simp only [joinCh]
      rw [splitCh_append_slash p _ (hs p (List.mem_cons_self p _))]
      congr 1
      exact ih (by simp) (fun r hr => hs r (List.mem_cons_of_mem p hr))

theorem listPre_iff_take {α : Type} [DecidableEq α] (l₁ l₂ : List α) :
    listPre l₁ l₂ = true ↔ l₂.take l₁.length = l₁ := by
  induction l₁ generalizing l₂ with
  | nil => simp [listPre]
  | cons a as ih =>
    rcases l₂ with _ | ⟨b, bs⟩
    · simp [listPre]
    · simp only [listPre, Bool.and_eq_true, decide_eq_true_eq, List.length_cons,
        List.take_succ_cons, List.cons.injEq, ih]
      constructor
      · rintro ⟨h1, h2⟩; exact ⟨h1.symm, h2⟩
      · rintro ⟨h1, h2⟩; exact ⟨h1.symm, h2⟩

/-! ## Lock manager data model (`src/webdav/lock-manager.ts`) -/

/-- `'exclusive' | 'shared'` -/
inductive LockScope
  | exclusive
  | shared
deriving DecidableEq

/-- `'infinity' | '0'` -/
inductive LockDepth
  | infinity
  | zero
deriving DecidableEq

/-- The `WebDAVLock` record (`src/webdav/types.ts`).  `created` is a
timestamp in milliseconds, `timeout` a lease duration in seconds. -/
structure WebDAVLock where
  token : String
  path : String
  owner : String
  timeout : Nat
  created : Nat
  depth : LockDepth
  scope : LockScope
deriving DecidableEq

/-- `'read' | 'write'` for stream locks. -/
inductive StreamType
  | read
  | write
deriving DecidableEq

/-- Entry of the `activeStreams` map. -/
structure StreamInfo where
  type : StreamType
  count : Nat
  lockToken : Option String
deriving DecidableEq

/-- The mutable state of a `LockManager` instance:
`locks` is the token → lock map, `pathLocks` the path → token-set map
(sets as lists in insertion order), `activeStreams` the stream-lock
table. -/
structure LockState where
  locks : List (String × WebDAVLock)
  pathLocks : List (String × List String)
  activeStreams : List (String × StreamInfo)
deriving DecidableEq

/-- The empty lock manager state. -/
def LockState.init : LockState := ⟨[], [], []⟩

namespace LockManager

/-- `LockManager.normalizePath`: ensure a leading `/`, strip one trailing
`/` unless the path is just `/`. -/
def normalizePath (path : String) : String :=
  let l := path.data
  let l₁ := if listPre ['/'] l then l else '/' :: l
  let l₂ := if l₁.length > 1 && decide (l₁.getLast? = some '/') then l₁.dropLast else l₁
  ⟨l₂⟩

/-- `LockManager.isExpired`: `now > created + timeout seconds`. -/
def isExpired (now : Nat) (lock : WebDAVLock) : Bool :=
  decide (now > lock.created + lock.timeout * 1000)

/-- `LockManager.getLock` (its returned value; the lazy removal of an
expired lock is a `removeLock`, covered separately as a step). -/
def getLock (st : LockState) (now : Nat) (token : String) : Option WebDAVLock :=
  match lookupA st.locks token with
  | none => none
  | some lock => if isExpired now lock then none else some lock

/-- `LockManager.getLocksForPath`: the non-expired locks whose token is
indexed under the normalized path. -/
def getLocksForPath (st : LockState) (now : Nat) (path : String) : List WebDAVLock :=
  let np := normalizePath path
  match lookupA st.pathLocks np with
  | none => []
  | some tokens => tokens.filterMap (getLock st now)

/-- `normalizedPath.split('/').filter(part => part.length > 0)`. -/
def segsOf (s : String) : List (List Char) :=
  (splitCh s.data).filter (fun p => decide (p ≠ []))

/-- `'/' + parts.slice(0, i).join('/')`. -/
def mkPath (segs : List (List Char)) : String :=
  ⟨'/' :: joinCh segs⟩

/-- The exclude-token filter `!excludeToken || lock.token !== excludeToken`. -/
def passesExclude (excludeToken : Option String) (lock : WebDAVLock) : Bool :=
  match excludeToken with
  | none => true
  | some t => decide (lock.token ≠ t)

/-- `LockManager.isLocked`: a direct non-expired lock on the normalized
path, or a non-expired depth-infinity lock on one of its proper
segment ancestors.  (The source iterates the ancestors from the longest
downwards with an early `return true`; the boolean result equals this
`List.any`.) -/
def isLocked (st : LockState) (now : Nat) (path : String)
    (excludeToken : Option String) : Bool :=
  let np := normalizePath path
  let locks := getLocksForPath st now np
  let directLocks := locks.filter
    (fun lock => decide (lock.path = np) && passesExclude excludeToken lock)
  if directLocks.length > 0 then true
  else
    let pathParts := segsOf np
    (List.range pathParts.length).any (fun i =>
      let parentPath := mkPath (pathParts.take i)
      let parentLocks := (getLocksForPath st now parentPath).filter
        (fun lock => decide (lock.depth = LockDepth.infinity) && passesExclude excludeToken lock)
      decide (parentLocks.length > 0))

/-- `LockManager.canLock`. -/
def canLock (st : LockState) (now : Nat) (path : String) (scope : LockScope) : Bool :=
  let np := normalizePath path
  match scope with
  | LockScope.exclusive => ! isLocked st now np none
  | LockScope.shared =>
    let locks := getLocksForPath st now np
    let exclusiveLocks := locks.filter (fun lock => decide (lock.scope = LockScope.exclusive))
    decide (exclusiveLocks.length = 0)

/-- `LockManager.hasValidLockToken`: direct match of the lock path, or a
depth-infinity lock whose path is a *string* prefix of the normalized
path (`normalizedPath.startsWith(lock.path)`). -/
def hasValidLockToken (st : LockState) (now : Nat) (path token : String) : Bool :=
  match getLock st now token with
  | none => false
  | some lock =>
    let np := normalizePath path
    if lock.path = np then true
    else if decide (lock.depth = LockDepth.infinity) && listPre lock.path.data np.data then true
    else false

/-- JS `Set.add`: append the element unless already present. -/
def addTokenSet (s : List String) (t : String) : List String :=
  if s.contains t then s else s ++ [t]

/-- `LockManager.createLock`.  The fresh uuid is passed in as
`freshToken`; `none` models the `'Resource is already locked'` throw.
`timeout? || defaultTimeout` makes an explicit `0` fall back to the
default (JS falsiness). -/
def createLock (st : LockState) (now defaultTimeout : Nat) (freshToken : String)
    (path owner : String) (scope : LockScope) (depth : LockDepth)
    (timeout? : Option Nat) : Option (WebDAVLock × LockState) :=
  let np := normalizePath path
  if ! canLock st now np scope then none
  else
    let lock : WebDAVLock :=
      { token := freshToken
        path := np
        owner := owner
        timeout := match timeout? with
          | some t => if t = 0 then defaultTimeout else t
          | none => defaultTimeout
        created := now
        depth := depth
        scope := scope }
    let locks' := insertA st.locks freshToken lock
    let set₀ := (lookupA st.pathLocks np).getD []
    let pathLocks' := insertA st.pathLocks np (addTokenSet set₀ freshToken)
    some (lock, { st with locks := locks', pathLocks := pathLocks' })

/-- `LockManager.removeLock`. -/
def removeLock (st : LockState) (token : String) : Bool × LockState :=
  match lookupA st.locks token with
  | none => (false, st)
  | some lock =>
    let locks' := eraseA st.locks token
    match lookupA st.pathLocks lock.path with
    | none => (true, { st with locks := locks' })
    | some s =>
      let s' := s.erase token
      if s'.length = 0 then
        (true, { st with locks := locks', pathLocks := eraseA st.pathLocks lock.path })
      else
        (true, { st with locks := locks', pathLocks := insertA st.pathLocks lock.path s' })

/-- `LockManager.refreshLock`.  `none` in the first component models the
`'Lock not found'` / `'Lock has expired'` throws; the state component is
the state after the call in every case. -/
def refreshLock (st : LockState) (now defaultTimeout : Nat) (token : String)
    (timeout? : Option Nat) : Option WebDAVLock × LockState :=
  match lookupA st.locks token with
  | none => (none, st)
  | some lock =>
    if isExpired now lock then (none, (removeLock st token).2)
    else
      let lock' := { lock with
        timeout := match timeout? with
          | some t => if t = 0 then defaultTimeout else t
          | none => defaultTimeout
        created := now }
      (some lock', { st with locks := insertA st.locks token lock' })

/-- `LockManager.removeLocksForPath`: drop every token indexed under the
normalized path from `locks`, and the index entry itself. -/
def removeLocksForPath (st : LockState) (path : String) : LockState :=
  let np := normalizePath path
  match lookupA st.pathLocks np with
  | none => st
  | some s =>
    { st with
      locks := s.foldl (fun m t => eraseA m t) st.locks
      pathLocks := eraseA st.pathLocks np }

/-- The token-set traversal of `moveLocksForPath`: rewrite the `path`
field of the lock behind each token. -/
def setLockPaths (nt : String) (s : List String)
    (m : List (String × WebDAVLock)) : List (String × WebDAVLock) :=
  s.foldl
    (fun acc t =>
      match lookupA acc t with
      | some l => insertA acc t { l with path := nt }
      | none => acc)
    m

/-- `LockManager.moveLocksForPath`: rewrite the `path` of every lock
indexed under the source, re-key the token set to the destination
(overwriting any set already there), and drop the source entry. -/
def moveLocksForPath (st : LockState) (fromPath toPath : String) : LockState :=
  let nf := normalizePath fromPath
  let nt := normalizePath toPath
  match lookupA st.pathLocks nf with
  | none => st
  | some s =>
    { st with
      locks := setLockPaths nt s st.locks
      pathLocks := eraseA (insertA st.pathLocks nt s) nf }

/-- `LockManager.cleanupExpiredLocks` (the 60 s sweep body). -/
def cleanupExpiredLocks (st : LockState) (now : Nat) : LockState :=
  let expiredTokens := (st.locks.filter (fun p => isExpired now p.2)).map Prod.fst
  expiredTokens.foldl (fun s t => (removeLock s t).2) st

/-- `LockManager.acquireStreamLock`. -/
def acquireStreamLock (st : LockState) (path : String) (type : StreamType)
    (lockToken : Option String) : Bool × LockState :=
  let np := normalizePath path
  match lookupA st.activeStreams np with
  | none =>
    (true, { st with activeStreams := insertA st.activeStreams np ⟨type, 1, lockToken⟩ })
  | some s =>
    if decide (type = StreamType.write) || decide (s.type = StreamType.write) then (false, st)
    else if decide (type = StreamType.read) && decide (s.type = StreamType.read) then
      (true, { st with activeStreams := insertA st.activeStreams np { s with count := s.count + 1 } })
    else (false, st)

/-- `LockManager.releaseStreamLock`: decrement; remove the entry at zero. -/
def releaseStreamLock (st : LockState) (path : String) : LockState :=
  let np := normalizePath path
  match lookupA st.activeStreams np with
  | none => st
  | some s =>
    if s.count ≤ 1 then { st with activeStreams := eraseA st.activeStreams np }
    else { st with activeStreams := insertA st.activeStreams np { s with count := s.count - 1 } }

/-- `LockManager.hasWebDAVLock`. -/
def hasWebDAVLock (st : LockState) (now : Nat) (path : String)
    (type : Option LockScope) : Bool :=
  let np := normalizePath path
  if ! isLocked st now np none then false
  else
    match type with
    | some t => (getLocksForPath st now np).any (fun lock => decide (lock.scope = t))
    | none => true

/-- `LockManager.hasStreamingConflict`. -/
def hasStreamingConflict (st : LockState) (path : String) (operation : StreamType) : Bool :=
  match lookupA st.activeStreams (normalizePath path) with
  | none => false
  | some s =>
    match operation with
    | StreamType.write => true
    | StreamType.read => decide (s.type = StreamType.write)

end LockManager

/-! ## JavaScript numeric and header parsing -/

/-- The JavaScript whitespace class used by `parseInt` and `\s`. -/
def jsWhitespace (c : Char) : Bool :=
  c = ' ' || c = '\t' || c = '\n' || c = '\r' || c = '\x0b' || c = '\x0c'

/-- Numeric value of a decimal digit string (most significant first). -/
def digitsVal (l : List Char) : Int :=
  (l.foldl (fun acc c => acc * 10 + (c.toNat - 48)) 0 : Nat)

/-- JavaScript `parseInt(s, 10)`: skip leading whitespace, optional sign,
then a maximal run of digits; `none` models `NaN`. -/
def parseIntJS (l : List Char) : Option Int :=
  let l₁ := l.dropWhile jsWhitespace
  let signAndRest : Int × List Char :=
    match l₁ with
    | '+' :: rest => (1, rest)
    | '-' :: rest => (-1, rest)
    | rest => (1, rest)
  let digits := signAndRest.2.takeWhile Char.isDigit
  if digits = [] then none
  else some (signAndRest.1 * digitsVal digits)

/-- First index of a character (JS `indexOf`, `none` for `-1`). -/
def idxOf (c : Char) : List Char → Option Nat
  | [] => none
  | x :: xs => if x = c then some 0 else (idxOf c xs).map (· + 1)

/-- `WebDAVServer.parseRangeHeader`: parse `bytes=a-b` / `bytes=a-` /
`bytes=-n` against a file size, exactly as the source does (split at the
first `-`, numeric fields read by JS `parseInt`), clamping the end to the
file size and rejecting a start at or past the size. -/
def parseRangeSpec (fileSize : Int) (startStr endStr : List Char) :
    Option (Int × Int) :=
  -- the source's local `parsed`: suffix form `-n`, open form `a-`, or `a-b`

  if startStr = [] then
    if endStr = [] then none
    else
      match parseIntJS endStr with
      | none => none
      | some suffix =>
        if suffix ≤ 0 then none
        else some (max 0 (fileSize - suffix), fileSize - 1)
  else if endStr = [] then
    match parseIntJS startStr with
    | none => none
    | some start => if start < 0 then none else some (start, fileSize - 1)
  else
    match parseIntJS startStr, parseIntJS endStr with
    | some start, some e =>
      if start < 0 || e < start then none else some (start, e)
    | _, _ => none

/-- the dispatch of `WebDAVServer.parseRangeHeader`: split at the first
`-` and hand the two fields to `parseRangeSpec`, then reject a start at
or past the size and clamp the end. -/
def parseRangeHeader (rangeHeader : String) (fileSize : Int) : Option (Int × Int) :=
  let l := rangeHeader.data
  if ! listPre ("bytes=".data) l then none
  else
    let rangeSpec := l.drop 6
    if rangeSpec = [] then none
    else
      match idxOf '-' rangeSpec with
      | none => none
      | some hyphenIndex =>
        match parseRangeSpec fileSize (rangeSpec.take hyphenIndex)
            (rangeSpec.drop (hyphenIndex + 1)) with
        | none => none
        | some (start, e) =>
          if start ≥ fileSize then none
          else some (start, min e (fileSize - 1))

/-- A parsed `Content-Range` header (`range.end` is `stop` here). -/
structure CRange where
  start : Int
  stop : Option Int
  total : Option Int
deriving DecidableEq

/-- `WebDAVServer.parseContentRange`: `bytes s-e/total`, `bytes s-e/*`,
or `bytes */total` (the latter yielding `start 0` with only a total). -/
def parseContentRange (contentRangeHeader : String) : Option CRange :=
  let l := contentRangeHeader.data
  if ! listPre ("bytes".data) l then none
  else
    let r₀ := l.drop 5
    if r₀.takeWhile jsWhitespace = [] then none
    else
      let r₁ := r₀.dropWhile jsWhitespace
      let totalForm : Option Int :=
        match r₁ with
        | '*' :: '/' :: ds =>
          if ds ≠ [] && ds.all Char.isDigit then some (digitsVal ds) else none
        | _ => none
      match totalForm with
      | some t => some ⟨0, none, some t⟩
      | none =>
        let d₁ := r₁.takeWhile Char.isDigit
        let rest₁ := r₁.dropWhile Char.isDigit
        if d₁ = [] then none
        else
          match rest₁ with
          | '-' :: rest₂ =>
            let d₂ := rest₂.takeWhile Char.isDigit
            let rest₃ := rest₂.dropWhile Char.isDigit
            if d₂ = [] then none
            else
              match rest₃ with
              | '/' :: rest₄ =>
                let totalPart : Option (Option Int) :=
                  if rest₄ = ['*'] then some none
                  else if rest₄ ≠ [] && rest₄.all Char.isDigit then
                    some (some (digitsVal rest₄))
                  else none
                match totalPart with
                | none => none
                | some tot =>
                  let s := digitsVal d₁
                  let e := digitsVal d₂
                  if s < 0 || e < s then none else some ⟨s, some e, tot⟩
              | _ => none
          | _ => none

/-! ## Percent decoding (JavaScript `decodeURIComponent`) -/

/-- Hex digit value. -/
def hexVal (c : Char) : Option Nat :=
  if '0' ≤ c ∧ c ≤ '9' then some (c.toNat - 48)
  else if 'a' ≤ c ∧ c ≤ 'f' then some (c.toNat - 97 + 10)
  else if 'A' ≤ c ∧ c ≤ 'F' then some (c.toNat - 65 + 10)
  else none

/-- Read one `%XX` escape from the front of the list. -/
def pctByte : List Char → Option (Nat × List Char)
  | p :: h1 :: h2 :: rest =>
    if p = '%' then
      match hexVal h1, hexVal h2 with
      | some a, some b => some (a * 16 + b, rest)
      | _, _ => none
    else none
  | _ => none

/-- Decode one UTF-8 sequence of `%XX` escapes into a character:
continuation bytes must themselves be escapes in `0x80..0xBF`; overlong
encodings, surrogates and out-of-range code points are rejected, as
`decodeURIComponent` does. -/
def utf8Decode1 (l : List Char) : Option (Char × List Char) :=
  match pctByte l with
  | none => none
  | some (b, r1) =>
    if b < 0x80 then some (Char.ofNat b, r1)
    else if b < 0xC0 then none
    else if b < 0xE0 then
      match pctByte r1 with
      | some (b2, r2) =>
        if 0x80 ≤ b2 ∧ b2 < 0xC0 then
          let cp := (b - 0xC0) * 0x40 + (b2 - 0x80)
          if cp < 0x80 then none else some (Char.ofNat cp, r2)
        else none
      | none => none
    else if b < 0xF0 then
      match pctByte r1 with
      | some (b2, r2) =>
        (match pctByte r2 with
         | some (b3, r3) =>
           if (0x80 ≤ b2 ∧ b2 < 0xC0) ∧ (0x80 ≤ b3 ∧ b3 < 0xC0) then
             let cp := (b - 0xE0) * 0x1000 + (b2 - 0x80) * 0x40 + (b3 - 0x80)
             if cp < 0x800 then none
             else if 0xD800 ≤ cp ∧ cp < 0xE000 then none
             else some (Char.ofNat cp, r3)
           else none
         | none => none)
      | none => none
    else if b < 0xF8 then
      match pctByte r1 with
      | some (b2, r2) =>
        (match pctByte r2 with
         | some (b3, r3) =>
           (match pctByte r3 with
            | some (b4, r4) =>
              if (0x80 ≤ b2 ∧ b2 < 0xC0) ∧ (0x80 ≤ b3 ∧ b3 < 0xC0) ∧
                  (0x80 ≤ b4 ∧ b4 < 0xC0) then
                let cp := (b - 0xF0) * 0x40000 + (b2 - 0x80) * 0x1000 +
                  (b3 - 0x80) * 0x40 + (b4 - 0x80)
                if cp < 0x10000 ∨ cp > 0x10FFFF then none
                else some (Char.ofNat cp, r4)
              else none
            | none => none)
         | none => none)
      | none => none
    else none

/-- Fueled decoding loop; the fuel only needs to dominate the number of
produced characters (one unit per step, each step consumes at least one
input character). -/
def decodeGo : Nat → List Char → Option (List Char)
  | _, [] => some []
  | 0, _ :: _ => none
  | fuel + 1, c :: tail =>
    if c ≠ '%' then (decodeGo fuel tail).map (fun d => c :: d)
    else
      match utf8Decode1 (c :: tail) with
      | none => none
      | some (ch, rest) => (decodeGo fuel rest).map (fun d => ch :: d)

/-- `decodeURIComponent`: percent triplets decode to UTF-8 bytes which
are reassembled into characters; malformed escapes, invalid UTF-8,
overlong forms and surrogate code points raise `URIError`, modelled by
`none`. -/
def decodeURIComp (l : List Char) : Option (List Char) :=
  decodeGo l.length l

/-! ## POSIX path normalization (Node `path.posix.normalize`) -/

/-- Node `normalizeString` segment processing with a reversed stack:
`''` and `'.'` are dropped, `'..'` pops a previous segment, is kept when
above root and `allowAbove` is set, and is dropped otherwise. -/
def normSegsGo (allowAbove : Bool) : List (List Char) → List (List Char) → List (List Char)
  | acc, [] => acc.reverse
  | acc, s :: rest =>
    if s = [] || s = ['.'] then normSegsGo allowAbove acc rest
    else if s = ['.', '.'] then
      match acc with
      | t :: ts =>
        if t ≠ ['.', '.'] then normSegsGo allowAbove ts rest
        else if allowAbove then normSegsGo allowAbove (s :: t :: ts) rest
        else normSegsGo allowAbove (t :: ts) rest
      | [] =>
        if allowAbove then normSegsGo allowAbove [s] rest
        else normSegsGo allowAbove [] rest
    else normSegsGo allowAbove (s :: acc) rest

/-- Node `path.posix.normalize`. -/
def posixNormalize (s : String) : String :=
  let l := s.data
  if l = [] then "."
  else
    let isAbs := listPre ['/'] l
    let trailingSep := decide (l.getLast? = some '/')
    let body := normSegsGo (! isAbs) [] (splitCh l)
    let joined := joinCh body
    if joined = [] then
      if isAbs then "/" else if trailingSep then "./" else "."
    else
      let j₂ := if trailingSep then joined ++ ['/'] else joined
      if isAbs then ⟨'/' :: j₂⟩ else ⟨j₂⟩

/-- Step of `WebDAVServer.normalizePath`: force a leading `/`. -/
def ensureLeadingSlash (l : List Char) : List Char :=
  if listPre ['/'] l then l else '/' :: l

/-- Step of `WebDAVServer.normalizePath`: strip one trailing `/` except
for the root. -/
def stripTrailingSlash (l : List Char) : List Char :=
  if l.length > 1 && decide (l.getLast? = some '/') then l.dropLast else l

/-- Step of `WebDAVServer.normalizePath`: if the string still contains
the substring `..`, drop every segment equal to `..` (an empty result
becomes `/`). -/
def stripDotDot (l : List Char) : List Char :=
  if containsSeq ['.', '.'] l then
    let kept := (splitCh l).filter (fun seg => decide (seg ≠ ['.', '.']))
    let j := joinCh kept
    if j = [] then ['/'] else j
  else l

namespace WebDAVServer

/-- `WebDAVServer.normalizePath`: percent-decode (a decoding error, which
the source lets escape as an exception, is `none`), POSIX-normalize,
force a leading `/`, strip one trailing `/` except for the root, and
drop `..` segments. -/
def normalizePath (requestPath : String) : Option String :=
  match decodeURIComp requestPath.data with
  | none => none
  | some dec =>
    some ⟨stripDotDot (stripTrailingSlash (ensureLeadingSlash
      (posixNormalize ⟨dec⟩).data))⟩

end WebDAVServer

/-! ## In-memory filesystem (`MemoryFileSystem` over memfs) -/

/-- A filesystem node: a directory or a file with byte content. -/
inductive FsNode
  | dir
  | file (content : List Nat)
deriving DecidableEq

/-- `'file' | 'collection'`. -/
inductive FileKind
  | file
  | collection
deriving DecidableEq

/-- The filesystem: full path → node, in creation order.  A fresh
`MemoryFileSystem` holds only the root directory. -/
abbrev FS := List (String × FsNode)

/-- The filesystem of a fresh `MemoryFileSystem`. -/
def FS.init : FS := [("/", FsNode.dir)]

/-- `fs.existsSync`. -/
def fsExists (fs : FS) (p : String) : Bool :=
  (lookupA fs p).isSome

/-- `MemoryFileSystem.getType`. -/
def getType (fs : FS) (p : String) : Option FileKind :=
  match lookupA fs p with
  | none => none
  | some FsNode.dir => some FileKind.collection
  | some (FsNode.file _) => some FileKind.file

/-- Whether `q` is a direct child path of the collection `parent`. -/
def isDirectChild (parent q : String) : Bool :=
  let preChars := (if parent = "/" then [] else parent.data) ++ ['/']
  listPre preChars q.data &&
    (let rest := q.data.drop preChars.length
     decide (rest ≠ []) && ! rest.contains '/')

/-- `MemoryFileSystem.getMembers`: the full paths of the direct children
(`readdirSync` names joined back onto the collection path). -/
def getMembers (fs : FS) (p : String) : List String :=
  (fs.filter (fun e => isDirectChild p e.1)).map Prod.fst

/-- `MemoryFileSystem.delete`: remove the node and, recursively, the
subtree below it (`rmSync { recursive: true }`). -/
def fsDelete (fs : FS) (p : String) : FS :=
  fs.filter (fun e =>
    ! (decide (e.1 = p) || listPre (p.data ++ ['/']) e.1.data))

/-- Node `path.dirname` for the normalized absolute paths the engine
produces. -/
def jsDirname (p : String) : String :=
  let segs := LockManager.segsOf p
  if segs.length ≤ 1 then "/" else LockManager.mkPath segs.dropLast

/-- One step of `fs.mkdirSync(p, { recursive: true })`: visit the
`i`-th prefix of `p`, reusing an existing directory, failing on a file
in the way, and appending a fresh directory entry otherwise. -/
def mkdirStep (segs : List (List Char)) (acc : Option FS) (i : Nat) : Option FS :=
  match acc with
  | none => none
  | some f =>
    match lookupA f (LockManager.mkPath (segs.take (i + 1))) with
    | some (FsNode.file _) => none
    | some FsNode.dir => some f
    | none => some (f ++ [(LockManager.mkPath (segs.take (i + 1)), FsNode.dir)])

/-- `fs.mkdirSync(p, { recursive: true })`: create every missing ancestor
directory; `none` if some ancestor (or `p` itself) is a file. -/
def fsMkdirRec (fs : FS) (p : String) : Option FS :=
  let segs := LockManager.segsOf p
  (List.range segs.length).foldl (mkdirStep segs) (some fs)

/-- `MemoryFileSystem.create(p, 'file')`: ensure the parent directory
exists, then `writeFileSync(p, '')`. -/
def fsCreateFile (fs : FS) (p : String) : Option FS :=
  let parent := jsDirname p
  match (if parent ≠ "/" then fsMkdirRec fs parent else some fs) with
  | none => none
  | some f =>
    match lookupA f p with
    | some FsNode.dir => none
    | _ => some (insertA f p (FsNode.file []))

/-- Splice `src` bytes into `dst` at `targetStart` (Node `Buffer.copy`
with explicit source length, which never grows the target here). -/
def bufCopy (src dst : List Nat) (targetStart len : Nat) : List Nat :=
  dst.take targetStart ++ src.take len ++ dst.drop (targetStart + len)

/-- `MemoryFileSystem.setStream`: ensure the parent directory, then
either splice the body into the (zero-extended) existing content at the
given `Content-Range`, or replace the whole content.  JS `||` falsiness
on `range.end` and `range.total` is preserved. -/
def setStream (fs : FS) (p : String) (body : List Nat) (range : Option CRange) :
    Option FS :=
  let parentDir := jsDirname p
  match (if parentDir ≠ "/" then fsMkdirRec fs parentDir else some fs) with
  | none => none
  | some f =>
    match range with
    | some r =>
      (match lookupA f p with
       | some FsNode.dir => none
       | some (FsNode.file c) => some c
       | none => some []).map (fun (existing : List Nat) =>
        let e0 : Int := match r.stop with
          | some e => if e = 0 then r.start else e
          | none => r.start
        let totalSize : Int := match r.total with
          | some t => if t = 0 then max (existing.length : Int) (e0 + 1) else t
          | none => max (existing.length : Int) (e0 + 1)
        let extended :=
          if (existing.length : Int) < totalSize then
            existing ++ List.replicate (totalSize - existing.length).toNat 0
          else existing
        let endPos : Int := match r.stop with
          | some e => e
          | none => r.start + body.length - 1
        let actualEndPos : Int := min endPos ((extended.length : Int) - 1)
        let writeLength : Int := min (body.length : Int) (actualEndPos - r.start + 1)
        let newContent :=
          if writeLength ≤ 0 then extended
          else bufCopy body extended r.start.toNat writeLength.toNat
        insertA f p (FsNode.file newContent))
    | none =>
      match lookupA f p with
      | some FsNode.dir => none
      | _ => some (insertA f p (FsNode.file body))

/-! ## Method engine (`WebDAVServer` request handlers) -/

/-- Combined server state: filesystem plus lock manager. -/
structure SrvState where
  fs : FS
  lm : LockState
deriving DecidableEq

/-- Scan for `opaquelocktoken:` and capture the following non-`>` run
(the `/opaquelocktoken:([^>]+)/` regex). -/
def findOpaque : List Char → Option String
  | [] => none
  | c :: rest =>
    if listPre ("opaquelocktoken:".data) (c :: rest) then
      let tok := ((c :: rest).drop 16).takeWhile (fun ch => decide (ch ≠ '>'))
      if tok = [] then findOpaque rest else some ⟨tok⟩
    else findOpaque rest

/-- `WebDAVServer.extractLockToken`: `Lock-Token` header first (when
present and non-empty its match result is final), then the `If` header. -/
def extractLockToken (lockTokenHdr ifHdr : Option String) : Option String :=
  let fromIf : Option String :=
    match ifHdr with
    | some s => if s.data ≠ [] then findOpaque s.data else none
    | none => none
  match lockTokenHdr with
  | some s => if s.data ≠ [] then findOpaque s.data else fromIf
  | none => fromIf

/-- An HTTP response as far as the claims observe it. -/
structure HttpResp where
  status : Nat
  contentType : Option String := none
  contentRange : Option String := none
  contentLength : Option Int := none
  bodyText : String := ""
  bodyBytes : List Nat := []
deriving DecidableEq

/-- `member.split('/').pop() || member`. -/
def lastSegJS (member : String) : String :=
  match (splitCh member.data).getLast? with
  | some lastPiece => if lastPiece = [] then member else ⟨lastPiece⟩
  | none => member

/-- `WebDAVServer.generateDirectoryListing`. -/
def generateDirectoryListing (path : String) (members : List String) : String :=
  let title := "Directory listing for " ++ path
  let rows := String.intercalate "\n" (members.map (fun member =>
    "<tr><td><a href=\"" ++ member ++ "\">" ++ lastSegJS member ++ "</a></td></tr>"))
  "\n<!DOCTYPE html>\n<html>\n<head>\n    <title>" ++ title ++ "</title>\n    <style>\n" ++
  "        body \x7b font-family: Arial, sans-serif; margin: 40px; \x7d\n" ++
  "        table \x7b border-collapse: collapse; width: 100%; \x7d\n" ++
  "        th, td \x7b text-align: left; padding: 8px; border-bottom: 1px solid #ddd; \x7d\n" ++
  "        a \x7b text-decoration: none; color: #0066cc; \x7d\n" ++
  "        a:hover \x7b text-decoration: underline; \x7d\n" ++
  "    </style>\n</head>\n<body>\n    <h1>" ++ title ++ "</h1>\n    <table>\n" ++
  "        <thead>\n            <tr><th>Name</th></tr>\n        </thead>\n" ++
  "        <tbody>\n            " ++ rows ++ "\n        </tbody>\n    </table>\n</body>\n</html>"

/-- The slice `createReadStream(p, {start, end})` streams (inclusive). -/
def sliceBytes (content : List Nat) (start stop : Int) : List Nat :=
  (content.drop start.toNat).take (stop - start + 1).toNat

/-- The response `WebDAVServer.handleGet` builds for an existing file
once the read stream lock is held: 416 with `Content-Range: bytes */size`
when the Range header does not parse, 206 with `Content-Range`,
`Content-Length` and the slice when it does, 200 with the whole content
without a Range header. -/
def getFileResponse (content : List Nat) (rangeHdr : Option String) : HttpResp :=
  let size : Int := content.length
  match rangeHdr with
  | none =>
    { status := 200, contentLength := some size, bodyBytes := content }
  | some h =>
    match parseRangeHeader h size with
    | none =>
      { status := 416, contentRange := some ("bytes */" ++ toString size) }
    | some (start, stop) =>
      { status := 206
        contentRange := some ("bytes " ++ toString start ++ "-" ++ toString stop ++
          "/" ++ toString size)
        contentLength := some (stop - start + 1)
        bodyBytes := sliceBytes content start stop }

/-- `WebDAVServer.handleGet`.  `none` models an escaped exception (500
via the outer catch).  The returned state is the state once the response
has finished (stream locks released on `finish`/`close`). -/
def handleGet (st : SrvState) (now : Nat) (reqPath : String)
    (rangeHdr : Option String) : Option (HttpResp × SrvState) :=
  match WebDAVServer.normalizePath reqPath with
  | none => none
  | some p =>
    if ! fsExists st.fs p then some ({ status := 404 }, st)
    else
      match getType st.fs p with
      | some FileKind.collection =>
        some ({ status := 200, contentType := some "text/html",
                bodyText := generateDirectoryListing p (getMembers st.fs p) }, st)
      | _ =>
        if LockManager.hasWebDAVLock st.lm now p (some LockScope.exclusive) then
          some ({ status := 423 }, st)
        else if LockManager.hasStreamingConflict st.lm p StreamType.read then
          some ({ status := 503 }, st)
        else
          match LockManager.acquireStreamLock st.lm p StreamType.read none with
          | (false, lm₁) => some ({ status := 503 }, { st with lm := lm₁ })
          | (true, lm₁) =>
            let content := match lookupA st.fs p with
              | some (FsNode.file c) => c
              | _ => []
            some (getFileResponse content rangeHdr,
              { st with lm := LockManager.releaseStreamLock lm₁ p })

/-- `WebDAVServer.handlePut`.  The body is the buffered request bytes. -/
def handlePut (st : SrvState) (now : Nat) (reqPath : String)
    (lockTokenHdr ifHdr contentRangeHdr : Option String) (body : List Nat) :
    Option (Nat × SrvState) :=
  match WebDAVServer.normalizePath reqPath with
  | none => none
  | some p =>
    let lockToken := extractLockToken lockTokenHdr ifHdr
    let lockDenied :=
      LockManager.hasWebDAVLock st.lm now p none &&
        (match lockToken with
         | none => true
         | some tok => ! LockManager.hasValidLockToken st.lm now p tok)
    if lockDenied then some (423, st)
    else if LockManager.hasStreamingConflict st.lm p StreamType.write then
      some (503, st)
    else
      match LockManager.acquireStreamLock st.lm p StreamType.write lockToken with
      | (false, lm₁) => some (503, { st with lm := lm₁ })
      | (true, lm₁) =>
        let exists₀ := fsExists st.fs p
        let rangeParse : Option (Option CRange) :=
          match contentRangeHdr with
          | some h =>
            (match parseContentRange h with
             | none => none
             | some r => some (some r))
          | none => some none
        match rangeParse with
        | none =>
          some (416, { st with lm := LockManager.releaseStreamLock lm₁ p })
        | some range =>
          let fs₁ :=
            if ! exists₀ && range = none then
              match fsCreateFile st.fs p with
              | some f => f
              | none => st.fs
            else st.fs
          match setStream fs₁ p body range with
          | none =>
            some (500, { fs := fs₁, lm := LockManager.releaseStreamLock lm₁ p })
          | some fs₂ =>
            some ((if exists₀ then 204 else 201),
              { fs := fs₂, lm := LockManager.releaseStreamLock lm₁ p })

/-- `WebDAVServer.handleDelete`. -/
def handleDelete (st : SrvState) (now : Nat) (reqPath : String)
    (lockTokenHdr ifHdr : Option String) : Option (Nat × SrvState) :=
  match WebDAVServer.normalizePath reqPath with
  | none => none
  | some p =>
    if ! fsExists st.fs p then some (404, st)
    else if p = "/" then some (403, st)
    else
      let proceed : Option (Nat × SrvState) :=
        some (204, { fs := fsDelete st.fs p, lm := LockManager.removeLocksForPath st.lm p })
      if LockManager.isLocked st.lm now p none then
        match extractLockToken lockTokenHdr ifHdr with
        | none => some (423, st)
        | some tok =>
          if ! LockManager.hasValidLockToken st.lm now p tok then some (423, st)
          else proceed
      else proceed

/-- `WebDAVServer.handleMkCol`: 405 when the target exists, otherwise
`filesystem.create(p, 'collection')` (recursive mkdir) and 201; a
creation failure escapes to the outer catch (`none`, 500). -/
def handleMkCol (st : SrvState) (reqPath : String) : Option (Nat × SrvState) :=
  match WebDAVServer.normalizePath reqPath with
  | none => none
  | some p =>
    if fsExists st.fs p then some (405, st)
    else
      match fsMkdirRec st.fs p with
      | none => none
      | some fs' => some (201, { st with fs := fs' })

/-- A parsed `lockinfo` body (`WebDAVXML.parseLockRequest` output). -/
structure LockRequestInfo where
  owner : String
  scope : LockScope
deriving DecidableEq

/-- `WebDAVServer.handleLock` for a request whose body parses: 404 when
the target is missing, 400 without a body, otherwise `createLock`; a
creation conflict is caught and answered with 500 (`'Resource is already
locked'`).  Returns the status, the state, and the issued token. -/
def handleLock (st : SrvState) (now defaultTimeout : Nat) (reqPath : String)
    (bodyPresent : Bool) (lockReq : LockRequestInfo) (depth : LockDepth)
    (timeout? : Option Nat) (freshToken : String) :
    Option (Nat × SrvState × Option String) :=
  match WebDAVServer.normalizePath reqPath with
  | none => none
  | some p =>
    if ! fsExists st.fs p then some (404, st, none)
    else if ! bodyPresent then some (400, st, none)
    else
      match LockManager.createLock st.lm now defaultTimeout freshToken p
          lockReq.owner lockReq.scope depth timeout? with
      | some (lock, lm') => some (200, { st with lm := lm' }, some lock.token)
      | none => some (500, st, none)

/-! ## The lock-index invariants -/

namespace LockManager

/-- The two-map invariant of the lock manager, together with the key- and
set-distinctness every JS `Map`/`Set` enjoys by construction.  `pathIdx`
is invariant (i) of the spec: every token in `byPath[p]` resolves via
`byToken` to a lock with `path == p`.  `tokIdx` states that every lock in
`byToken` (expired or not) is indexed under its path; together with
`pathIdx` it gives invariant (ii): a lock is in both indexes or in
neither. -/
structure LMInv (st : LockState) : Prop where
  ndLocks : KeysND st.locks
  ndPaths : KeysND st.pathLocks
  setsND : ∀ p ts, lookupA st.pathLocks p = some ts → ts.Nodup
  pathIdx : ∀ p ts, lookupA st.pathLocks p = some ts →
    ∀ t ∈ ts, ∃ l, lookupA st.locks t = some l ∧ l.path = p
  tokIdx : ∀ t l, lookupA st.locks t = some l →
    ∃ ts, lookupA st.pathLocks l.path = some ts ∧ t ∈ ts

theorem lmInv_init : LMInv LockState.init := by
  refine ⟨?_, ?_, ?_, ?_, ?_⟩ <;> simp [LockState.init, KeysND, keysA]

theorem mem_addTokenSet (s : List String) (t x : String) :
    x ∈ addTokenSet s t ↔ x ∈ s ∨ x = t := by
  rcases hc : s.contains t with _ | _
  · simp only [addTokenSet, hc, Bool.false_eq_true, if_false, List.mem_append,
      List.mem_singleton]
  · have hm : t ∈ s := List.elem_iff.mp hc
    simp only [addTokenSet, hc, if_true]
    constructor
    · exact Or.inl
    · rintro (hx | rfl)
      · exact hx
      · exact hm

theorem nodup_addTokenSet (s : List String) (t : String) (h : s.Nodup) :
    (addTokenSet s t).Nodup := by
  rcases hc : s.contains t with _ | _
  · have hm : t ∉ s := fun hmem => by
      have hb : s.contains t = true := List.elem_iff.mpr hmem
      rw [hb] at hc; exact Bool.noConfusion hc
    simp only [addTokenSet, hc, Bool.false_eq_true, if_false]
    refine List.Nodup.append h (List.nodup_singleton t) ?_
    intro x hx hxt
    simp only [List.mem_singleton] at hxt
    subst hxt
    exact hm hx
  · simpa only [addTokenSet, hc, if_true] using h

/-- What a successful `createLock` produces. -/
theorem createLock_eq_some (st : LockState) (now dflt : Nat) (tok path owner : String)
    (scope : LockScope) (depth : LockDepth) (timeout? : Option Nat)
    (lock : WebDAVLock) (st' : LockState)
    (hc : createLock st now dflt tok path owner scope depth timeout? = some (lock, st')) :
    canLock st now (normalizePath path) scope = true ∧
    lock.path = normalizePath path ∧
    st'.locks = insertA st.locks tok lock ∧
    st'.pathLocks = insertA st.pathLocks (normalizePath path)
      (addTokenSet ((lookupA st.pathLocks (normalizePath path)).getD []) tok) ∧
    st'.activeStreams = st.activeStreams := by
  simp only [createLock] at hc
  rcases hcan : canLock st now (normalizePath path) scope with _ | _
  · rw [hcan] at hc
    simp at hc
  · rw [hcan] at hc
    simp only [Bool.not_true, Bool.false_eq_true, if_false, Option.some.injEq,
      Prod.mk.injEq] at hc
    obtain ⟨hlock, hst⟩ := hc
    subst hst
    refine ⟨rfl, ?_, ?_, rfl, rfl⟩
    · rw [← hlock]
    · rw [← hlock]

theorem lmInv_createLock (st : LockState) (now dflt : Nat) (tok path owner : String)
    (scope : LockScope) (depth : LockDepth) (timeout? : Option Nat)
    (lock : WebDAVLock) (st' : LockState)
    (hinv : LMInv st) (hfresh : lookupA st.locks tok = none)
    (hc : createLock st now dflt tok path owner scope depth timeout? = some (lock, st')) :
    LMInv st' := by
  obtain ⟨hcan, hlp, hlocks', hpaths', hstreams'⟩ :=
    createLock_eq_some st now dflt tok path owner scope depth timeout? lock st' hc
  set np := normalizePath path with hnp
  set set₀ : List String := (lookupA st.pathLocks np).getD [] with hset₀
  have hset₀mem : ∀ x ∈ set₀, ∃ ts, lookupA st.pathLocks np = some ts ∧ x ∈ ts := by
    intro x hx
    rcases h : lookupA st.pathLocks np with _ | s
    · rw [hset₀, h] at hx; simp at hx
    · rw [hset₀, h] at hx; exact ⟨s, rfl, hx⟩
  refine ⟨?_, ?_, ?_, ?_, ?_⟩
  · rw [hlocks']; exact keysND_insertA _ _ _ hinv.ndLocks
  · rw [hpaths']; exact keysND_insertA _ _ _ hinv.ndPaths
  · intro p ts hts
    rw [hpaths', lookupA_insertA] at hts
    by_cases hp : np = p
    · rw [if_pos hp] at hts
      cases hts
      apply nodup_addTokenSet
      rcases h : lookupA st.pathLocks np with _ | s
      · rw [hset₀, h]; exact List.nodup_nil
      · rw [hset₀, h]; exact hinv.setsND np s h
    · rw [if_neg hp] at hts
      exact hinv.setsND p ts hts
  · intro p ts hts t ht
    rw [hpaths', lookupA_insertA] at hts
    by_cases hp : np = p
    · subst hp
      rw [if_pos rfl] at hts
      cases hts
      rcases (mem_addTokenSet _ _ _).mp ht with hmem | rfl
      · obtain ⟨ts₀, hts₀, hmem₀⟩ := hset₀mem t hmem
        obtain ⟨l, hl, hlpath⟩ := hinv.pathIdx np ts₀ hts₀ t hmem₀
        have htne : t ≠ tok := by
          intro h; rw [h, hfresh] at hl; exact Option.noConfusion hl
        refine ⟨l, ?_, hlpath⟩
        rw [hlocks', lookupA_insertA, if_neg (fun h => htne h.symm)]
        exact hl
      · refine ⟨lock, ?_, hlp⟩
        rw [hlocks', lookupA_insertA, if_pos rfl]
    · rw [if_neg hp] at hts
      obtain ⟨l, hl, hlpath⟩ := hinv.pathIdx p ts hts t ht
      have htne : t ≠ tok := by
        intro h; rw [h, hfresh] at hl; exact Option.noConfusion hl
      refine ⟨l, ?_, hlpath⟩
      rw [hlocks', lookupA_insertA, if_neg (fun h => htne h.symm)]
      exact hl
  · intro t l hl
    rw [hlocks', lookupA_insertA] at hl
    by_cases ht : tok = t
    · subst ht
      rw [if_pos rfl] at hl
      cases hl
      refine ⟨addTokenSet set₀ tok, ?_, ?_⟩
      · rw [hpaths', hlp, lookupA_insertA, if_pos rfl]
      · exact (mem_addTokenSet _ _ _).mpr (Or.inr rfl)
    · rw [if_neg ht] at hl
      obtain ⟨ts₀, hts₀, hmem₀⟩ := hinv.tokIdx t l hl
      by_cases hp : l.path = np
      · refine ⟨addTokenSet set₀ tok, ?_, ?_⟩
        · rw [hpaths', hp, lookupA_insertA, if_pos rfl]
        · apply (mem_addTokenSet _ _ _).mpr
          left
          rw [hp] at hts₀
          rw [hset₀, hts₀]
          exact hmem₀
      · refine ⟨ts₀, ?_, hmem₀⟩
        rw [hpaths', lookupA_insertA, if_neg (fun h => hp h.symm)]
        exact hts₀

theorem keysND_foldl_eraseA {α : Type} (ts : List String) (m : List (String × α))
    (hnd : KeysND m) : KeysND (ts.foldl (fun acc x => eraseA acc x) m) := by
  induction ts generalizing m with
  | nil => exact hnd
  | cons t₀ ts' ih => exact ih (eraseA m t₀) (keysND_eraseA m t₀ hnd)

theorem lookupA_foldl_eraseA {α : Type} (ts : List String) (m : List (String × α))
    (t : String) (hnd : KeysND m) :
    lookupA (ts.foldl (fun acc x => eraseA acc x) m) t =
      if t ∈ ts then none else lookupA m t := by
  induction ts generalizing m with
  | nil => simp
  | cons t₀ ts' ih =>
    simp only [List.foldl_cons]
    rw [ih (eraseA m t₀) (keysND_eraseA m t₀ hnd)]
    by_cases hmem : t ∈ ts'
    · simp [hmem]
    · by_cases ht₀ : t = t₀
      · subst ht₀
        simp [hmem, lookupA_eraseA_self m t hnd]
      · rw [if_neg hmem, lookupA_eraseA_ne m t₀ t (fun h => ht₀ h.symm),
          if_neg (by simp [List.mem_cons, ht₀, hmem])]

theorem lmInv_removeLock (st : LockState) (tok : String) (hinv : LMInv st) :
    LMInv (removeLock st tok).2 := by
  rcases hl : lookupA st.locks tok with _ | lock
  · simp only [removeLock, hl]; exact hinv
  · obtain ⟨s, hs, htoks⟩ := hinv.tokIdx tok lock hl
    have hsnd : s.Nodup := hinv.setsND _ _ hs
    have hmem_s' : ∀ x, x ∈ s.erase tok ↔ x ≠ tok ∧ x ∈ s := by
      intro x
      exact List.Nodup.mem_erase_iff hsnd
    simp only [removeLock, hl, hs]
    by_cases hlen : (s.erase tok).length = 0
    · rw [if_pos hlen]
      have hnil : s.erase tok = [] := List.length_eq_zero.mp hlen
      refine ⟨?_, ?_, ?_, ?_, ?_⟩
      · exact keysND_eraseA _ _ hinv.ndLocks
      · exact keysND_eraseA _ _ hinv.ndPaths
      · intro p ts hts
        by_cases hp : lock.path = p
        · subst hp
          rw [lookupA_eraseA_self _ _ hinv.ndPaths] at hts
          exact Option.noConfusion hts
        · rw [lookupA_eraseA_ne _ _ _ hp] at hts
          exact hinv.setsND p ts hts
      · intro p ts hts t ht
        by_cases hp : lock.path = p
        · subst hp
          rw [lookupA_eraseA_self _ _ hinv.ndPaths] at hts
          exact Option.noConfusion hts
        · rw [lookupA_eraseA_ne _ _ _ hp] at hts
          obtain ⟨l', hl', hlp'⟩ := hinv.pathIdx p ts hts t ht
          have htne : t ≠ tok := by
            intro h
            subst h
            rw [hl] at hl'
            cases hl'
            exact hp hlp'
          refine ⟨l', ?_, hlp'⟩
          rw [lookupA_eraseA_ne _ _ _ (fun h => htne h.symm)]
          exact hl'
      · intro t l hlt
        by_cases ht : tok = t
        · subst ht
          rw [lookupA_eraseA_self _ _ hinv.ndLocks] at hlt
          exact Option.noConfusion hlt
        · rw [lookupA_eraseA_ne _ _ _ ht] at hlt
          obtain ⟨ts₀, hts₀, hm₀⟩ := hinv.tokIdx t l hlt
          by_cases hp : l.path = lock.path
          · rw [hp, hs] at hts₀
            cases hts₀
            have : t ∈ s.erase tok := (hmem_s' t).mpr ⟨fun h => ht h.symm, hm₀⟩
            rw [hnil] at this
            exact absurd this (List.not_mem_nil t)
          · refine ⟨ts₀, ?_, hm₀⟩
            rw [lookupA_eraseA_ne _ _ _ (fun h => hp h.symm)]
            exact hts₀
    · rw [if_neg hlen]
      refine ⟨?_, ?_, ?_, ?_, ?_⟩
      · exact keysND_eraseA _ _ hinv.ndLocks
      · exact keysND_insertA _ _ _ hinv.ndPaths
      · intro p ts hts
        rw [lookupA_insertA] at hts
        by_cases hp : lock.path = p
        · rw [if_pos hp] at hts
          cases hts
          exact hsnd.erase tok
        · rw [if_neg hp] at hts
          exact hinv.setsND p ts hts
      · intro p ts hts t ht
        rw [lookupA_insertA] at hts
        by_cases hp : lock.path = p
        · subst hp
          rw [if_pos rfl] at hts
          cases hts
          obtain ⟨htne, hmem⟩ := (hmem_s' t).mp ht
          obtain ⟨l', hl', hlp'⟩ := hinv.pathIdx lock.path s hs t hmem
          refine ⟨l', ?_, hlp'⟩
          rw [lookupA_eraseA_ne _ _ _ (fun h => htne h.symm)]
          exact hl'
        · rw [if_neg hp] at hts
          obtain ⟨l', hl', hlp'⟩ := hinv.pathIdx p ts hts t ht
          have htne : t ≠ tok := by
            intro h
            subst h
            rw [hl] at hl'
            cases hl'
            exact hp hlp'
          refine ⟨l', ?_, hlp'⟩
          rw [lookupA_eraseA_ne _ _ _ (fun h => htne h.symm)]
          exact hl'
      · intro t l hlt
        by_cases ht : tok = t
        · subst ht
          rw [lookupA_eraseA_self _ _ hinv.ndLocks] at hlt
          exact Option.noConfusion hlt
        · rw [lookupA_eraseA_ne _ _ _ ht] at hlt
          obtain ⟨ts₀, hts₀, hm₀⟩ := hinv.tokIdx t l hlt
          by_cases hp : l.path = lock.path
          · rw [hp, hs] at hts₀
            cases hts₀
            refine ⟨s.erase tok, ?_, ?_⟩
            · rw [hp, lookupA_insertA, if_pos rfl]
            · exact (hmem_s' t).mpr ⟨fun h => ht h.symm, hm₀⟩
          · refine ⟨ts₀, ?_, hm₀⟩
            rw [lookupA_insertA, if_neg (fun h => hp h.symm)]
            exact hts₀

theorem lmInv_refreshLock (st : LockState) (now dflt : Nat) (tok : String)
    (timeout? : Option Nat) (hinv : LMInv st) :
    LMInv (refreshLock st now dflt tok timeout?).2 := by
  rcases hl : lookupA st.locks tok with _ | lock
  · simp only [refreshLock, hl]; exact hinv
  · by_cases hexp : isExpired now lock
    · simp only [refreshLock, hl, hexp, if_true]
      exact lmInv_removeLock st tok hinv
    · simp only [refreshLock, hl, hexp, Bool.false_eq_true, if_false]
      refine ⟨keysND_insertA _ _ _ hinv.ndLocks, hinv.ndPaths, hinv.setsND, ?_, ?_⟩
      · intro p ts hts t ht
        obtain ⟨l', hl', hlp'⟩ := hinv.pathIdx p ts hts t ht
        rw [lookupA_insertA]
        by_cases h : tok = t
        · subst h
          rw [hl] at hl'
          cases hl'
          exact ⟨_, if_pos rfl, hlp'⟩
        · rw [if_neg h]
          exact ⟨l', hl', hlp'⟩
      · intro t l hlt
        rw [lookupA_insertA] at hlt
        by_cases h : tok = t
        · subst h
          rw [if_pos rfl] at hlt
          cases hlt
          obtain ⟨ts₀, hts₀, hm₀⟩ := hinv.tokIdx tok lock hl
          exact ⟨ts₀, hts₀, hm₀⟩
        · rw [if_neg h] at hlt
          exact hinv.tokIdx t l hlt

theorem lmInv_removeLocksForPath (st : LockState) (path : String) (hinv : LMInv st) :
    LMInv (removeLocksForPath st path) := by
  rcases hs : lookupA st.pathLocks (normalizePath path) with _ | s
  · simp only [removeLocksForPath, hs]; exact hinv
  · simp only [removeLocksForPath, hs]
    refine ⟨?_, ?_, ?_, ?_, ?_⟩
    · exact keysND_foldl_eraseA _ _ hinv.ndLocks
    · exact keysND_eraseA _ _ hinv.ndPaths
    · intro p ts hts
      by_cases hp : normalizePath path = p
      · subst hp
        rw [lookupA_eraseA_self _ _ hinv.ndPaths] at hts
        exact Option.noConfusion hts
      · rw [lookupA_eraseA_ne _ _ _ hp] at hts
        exact hinv.setsND p ts hts
    · intro p ts hts t ht
      by_cases hp : normalizePath path = p
      · subst hp
        rw [lookupA_eraseA_self _ _ hinv.ndPaths] at hts
        exact Option.noConfusion hts
      · rw [lookupA_eraseA_ne _ _ _ hp] at hts
        obtain ⟨l', hl', hlp'⟩ := hinv.pathIdx p ts hts t ht
        have htm : t ∉ s := by
          intro hmem
          obtain ⟨l'', hl'', hlp''⟩ := hinv.pathIdx _ s hs t hmem
          rw [hl'] at hl''
          cases hl''
          exact hp (hlp''.symm.trans hlp')
        refine ⟨l', ?_, hlp'⟩
        rw [lookupA_foldl_eraseA _ _ _ hinv.ndLocks, if_neg htm]
        exact hl'
    · intro t l hlt
      rw [lookupA_foldl_eraseA _ _ _ hinv.ndLocks] at hlt
      by_cases htm : t ∈ s
      · rw [if_pos htm] at hlt
        exact Option.noConfusion hlt
      · rw [if_neg htm] at hlt
        obtain ⟨ts₀, hts₀, hm₀⟩ := hinv.tokIdx t l hlt
        by_cases hp : l.path = normalizePath path
        · rw [hp, hs] at hts₀
          cases hts₀
          exact absurd hm₀ htm
        · refine ⟨ts₀, ?_, hm₀⟩
          rw [lookupA_eraseA_ne _ _ _ (fun h => hp h.symm)]
          exact hts₀

theorem updPath_idem (nt : String) (l : WebDAVLock) :
    ({ { l with path := nt } with path := nt } : WebDAVLock) = { l with path := nt } := rfl

theorem lookupA_setLockPaths (nt : String) (s : List String)
    (m : List (String × WebDAVLock)) (t : String) :
    lookupA (setLockPaths nt s m) t =
      if t ∈ s then (lookupA m t).map (fun l => { l with path := nt })
      else lookupA m t := by
  induction s generalizing m with
  | nil => simp [setLockPaths]
  | cons t₀ s' ih =>
    rcases h₀ : lookupA m t₀ with _ | l₀
    · have hstep : setLockPaths nt (t₀ :: s') m = setLockPaths nt s' m := by
        simp [setLockPaths, h₀]
      rw [hstep, ih]
      by_cases hts' : t ∈ s'
      · simp [hts', List.mem_cons]
      · by_cases ht₀ : t = t₀
        · subst ht₀
          simp [hts', h₀]
        · simp [hts', List.mem_cons, ht₀]
    · have hstep : setLockPaths nt (t₀ :: s') m =
          setLockPaths nt s' (insertA m t₀ { l₀ with path := nt }) := by
        simp [setLockPaths, h₀]
      rw [hstep, ih]
      by_cases hts' : t ∈ s'
      · rw [if_pos hts', if_pos (List.mem_cons_of_mem t₀ hts'), lookupA_insertA]
        by_cases ht₀ : t₀ = t
        · subst ht₀
          rw [if_pos rfl, h₀]
          simp
        · rw [if_neg ht₀]
      · rw [if_neg hts']
        by_cases ht₀ : t = t₀
        · subst ht₀
          rw [lookupA_insertA, if_pos rfl, if_pos (List.mem_cons_self t s'), h₀]
          simp
        · rw [lookupA_insertA, if_neg (fun h => ht₀ h.symm),
            if_neg (by simp [List.mem_cons, ht₀, hts'])]

theorem keysND_setLockPaths (nt : String) (s : List String)
    (m : List (String × WebDAVLock)) (hnd : KeysND m) :
    KeysND (setLockPaths nt s m) := by
  induction s generalizing m with
  | nil => exact hnd
  | cons t₀ s' ih =>
    rcases h₀ : lookupA m t₀ with _ | l₀
    · have hstep : setLockPaths nt (t₀ :: s') m = setLockPaths nt s' m := by
        simp [setLockPaths, h₀]
      rw [hstep]
      exact ih m hnd
    · have hstep : setLockPaths nt (t₀ :: s') m =
          setLockPaths nt s' (insertA m t₀ { l₀ with path := nt }) := by
        simp [setLockPaths, h₀]
      rw [hstep]
      exact ih _ (keysND_insertA _ _ _ hnd)

theorem lmInv_moveLocksForPath (st : LockState) (fromPath toPath : String)
    (hinv : LMInv st)
    (hsafe : lookupA st.pathLocks (normalizePath toPath) = none ∨
      lookupA st.pathLocks (normalizePath fromPath) = none) :
    LMInv (moveLocksForPath st fromPath toPath) := by
  rcases hsf : lookupA st.pathLocks (normalizePath fromPath) with _ | s
  · simp only [moveLocksForPath, hsf]; exact hinv
  · have hnt : lookupA st.pathLocks (normalizePath toPath) = none := by
      rcases hsafe with h | h
      · exact h
      · rw [hsf] at h; exact Option.noConfusion h
    have hne : normalizePath toPath ≠ normalizePath fromPath := by
      intro h
      rw [h, hsf] at hnt
      exact Option.noConfusion hnt
    have hndIns : KeysND (insertA st.pathLocks (normalizePath toPath) s) :=
      keysND_insertA _ _ _ hinv.ndPaths
    have hlookupP : ∀ p, lookupA (eraseA (insertA st.pathLocks (normalizePath toPath) s)
        (normalizePath fromPath)) p =
        if normalizePath fromPath = p then none
        else if normalizePath toPath = p then some s
        else lookupA st.pathLocks p := by
      intro p
      by_cases hp : normalizePath fromPath = p
      · subst hp
        rw [if_pos rfl, lookupA_eraseA_self _ _ hndIns]
      · rw [if_neg hp, lookupA_eraseA_ne _ _ _ hp, lookupA_insertA]
    simp only [moveLocksForPath, hsf]
    refine ⟨?_, ?_, ?_, ?_, ?_⟩
    · exact keysND_setLockPaths _ _ _ hinv.ndLocks
    · exact keysND_eraseA _ _ hndIns
    · intro p ts hts
      rw [hlookupP] at hts
      by_cases hpf : normalizePath fromPath = p
      · rw [if_pos hpf] at hts; exact Option.noConfusion hts
      · rw [if_neg hpf] at hts
        by_cases hpt : normalizePath toPath = p
        · rw [if_pos hpt] at hts
          cases hts
          exact hinv.setsND _ s hsf
        · rw [if_neg hpt] at hts
          exact hinv.setsND p ts hts
    · intro p ts hts t ht
      rw [hlookupP] at hts
      by_cases hpf : normalizePath fromPath = p
      · rw [if_pos hpf] at hts; exact Option.noConfusion hts
      · rw [if_neg hpf] at hts
        by_cases hpt : normalizePath toPath = p
        · rw [if_pos hpt] at hts
          cases hts
          obtain ⟨l₀, hl₀, hlp₀⟩ := hinv.pathIdx _ s hsf t ht
          refine ⟨{ l₀ with path := normalizePath toPath }, ?_, by rw [← hpt]⟩
          rw [lookupA_setLockPaths, if_pos ht, hl₀]
          rfl
        · rw [if_neg hpt] at hts
          obtain ⟨l', hl', hlp'⟩ := hinv.pathIdx p ts hts t ht
          have htm : t ∉ s := by
            intro hmem
            obtain ⟨l'', hl'', hlp''⟩ := hinv.pathIdx _ s hsf t hmem
            rw [hl'] at hl''
            cases hl''
            exact hpf (hlp''.symm.trans hlp')
          refine ⟨l', ?_, hlp'⟩
          rw [lookupA_setLockPaths, if_neg htm]
          exact hl'
    · intro t l hlt
      rw [lookupA_setLockPaths] at hlt
      by_cases htm : t ∈ s
      · rw [if_pos htm] at hlt
        rcases h₀ : lookupA st.locks t with _ | l₀
        · rw [h₀] at hlt; exact Option.noConfusion hlt
        · rw [h₀] at hlt
          have hlt2 : ({ l₀ with path := normalizePath toPath } : WebDAVLock) = l :=
            Option.some.inj hlt
          subst hlt2
          refine ⟨s, ?_, htm⟩
          rw [hlookupP, if_neg (fun h => hne h.symm), if_pos rfl]
      · rw [if_neg htm] at hlt
        obtain ⟨ts₀, hts₀, hm₀⟩ := hinv.tokIdx t l hlt
        have hpf : l.path ≠ normalizePath fromPath := by
          intro h
          rw [h, hsf] at hts₀
          cases hts₀
          exact htm hm₀
        have hpt : l.path ≠ normalizePath toPath := by
          intro h
          rw [h, hnt] at hts₀
          exact Option.noConfusion hts₀
        refine ⟨ts₀, ?_, hm₀⟩
        rw [hlookupP, if_neg (fun h => hpf h.symm), if_neg (fun h => hpt h.symm)]
        exact hts₀

theorem lmInv_foldl_removeLock (ts : List String) (st : LockState) (hinv : LMInv st) :
    LMInv (ts.foldl (fun s t => (removeLock s t).2) st) := by
  induction ts generalizing st with
  | nil => exact hinv
  | cons t₀ ts' ih => exact ih _ (lmInv_removeLock st t₀ hinv)

theorem lmInv_cleanupExpiredLocks (st : LockState) (now : Nat) (hinv : LMInv st) :
    LMInv (cleanupExpiredLocks st now) :=
  lmInv_foldl_removeLock _ st hinv

end LockManager

/-- Every state reachable by lock-manager operations, with no restriction
on `moveLocksForPath` destinations.  `createStep` carries the freshness
of the generated uuid token. -/
inductive ReachableAny : LockState → Prop
  | init : ReachableAny LockState.init
  | createStep (st : LockState) (now dflt : Nat) (tok path owner : String)
      (scope : LockScope) (depth : LockDepth) (timeout? : Option Nat)
      (lock : WebDAVLock) (st' : LockState) :
      ReachableAny st → lookupA st.locks tok = none →
      LockManager.createLock st now dflt tok path owner scope depth timeout? =
        some (lock, st') →
      ReachableAny st'
  | removeStep (st : LockState) (tok : String) :
      ReachableAny st → ReachableAny (LockManager.removeLock st tok).2
  | refreshStep (st : LockState) (now dflt : Nat) (tok : String) (timeout? : Option Nat) :
      ReachableAny st → ReachableAny (LockManager.refreshLock st now dflt tok timeout?).2
  | removePathStep (st : LockState) (path : String) :
      ReachableAny st → ReachableAny (LockManager.removeLocksForPath st path)
  | movePathStep (st : LockState) (fromPath toPath : String) :
      ReachableAny st → ReachableAny (LockManager.moveLocksForPath st fromPath toPath)
  | cleanupStep (st : LockState) (now : Nat) :
      ReachableAny st → ReachableAny (LockManager.cleanupExpiredLocks st now)

/-- Reachability when `moveLocksForPath` is only invoked with a
destination that holds no locks (or a source that holds none, making the
call a no-op). -/
inductive ReachableSafe : LockState → Prop
  | init : ReachableSafe LockState.init
  | createStep (st : LockState) (now dflt : Nat) (tok path owner : String)
      (scope : LockScope) (depth : LockDepth) (timeout? : Option Nat)
      (lock : WebDAVLock) (st' : LockState) :
      ReachableSafe st → lookupA st.locks tok = none →
      LockManager.createLock st now dflt tok path owner scope depth timeout? =
        some (lock, st') →
      ReachableSafe st'
  | removeStep (st : LockState) (tok : String) :
      ReachableSafe st → ReachableSafe (LockManager.removeLock st tok).2
  | refreshStep (st : LockState) (now dflt : Nat) (tok : String) (timeout? : Option Nat) :
      ReachableSafe st → ReachableSafe (LockManager.refreshLock st now dflt tok timeout?).2
  | removePathStep (st : LockState) (path : String) :
      ReachableSafe st → ReachableSafe (LockManager.removeLocksForPath st path)
  | movePathStep (st : LockState) (fromPath toPath : String) :
      ReachableSafe st →
      lookupA st.pathLocks (LockManager.normalizePath toPath) = none ∨
        lookupA st.pathLocks (LockManager.normalizePath fromPath) = none →
      ReachableSafe (LockManager.moveLocksForPath st fromPath toPath)
  | cleanupStep (st : LockState) (now : Nat) :
      ReachableSafe st → ReachableSafe (LockManager.cleanupExpiredLocks st now)

/-- The first C5 scenario lock: exclusive depth-infinity on `/dst`. -/
def c5Lock1 : WebDAVLock :=
  { token := "t1", path := "/dst", owner := "o1", timeout := 3600, created := 0,
    depth := LockDepth.infinity, scope := LockScope.exclusive }

/-- The second C5 scenario lock: exclusive depth-infinity on `/src`. -/
def c5Lock2 : WebDAVLock :=
  { token := "t2", path := "/src", owner := "o2", timeout := 3600, created := 0,
    depth := LockDepth.infinity, scope := LockScope.exclusive }

/-- State after `createLock('/dst', 'o1')` issued token `t1`. -/
def c5State1 : LockState :=
  { locks := [("t1", c5Lock1)], pathLocks := [("/dst", ["t1"])], activeStreams := [] }

/-- State after a further `createLock('/src', 'o2')` issued token `t2`. -/
def c5State2 : LockState :=
  { locks := [("t1", c5Lock1), ("t2", c5Lock2)],
    pathLocks := [("/dst", ["t1"]), ("/src", ["t2"])], activeStreams := [] }

/-- State after `moveLocksForPath('/src', '/dst')` with the destination
already locked. -/
def c5BadState : LockState :=
  LockManager.moveLocksForPath c5State2 "/src" "/dst"

/-- C5 (counterexample): the state reached by `createLock('/dst')`,
`createLock('/src')`, `moveLocksForPath('/src', '/dst')` is reachable by
lock-manager operations, yet invariant (ii) fails in it: the non-expired
lock behind token `t1` is still in `byToken` with `path = '/dst'`, while
`byPath['/dst']` was overwritten with `['t2']`, so `t1` is indexed
nowhere. -/
theorem lockIndex_move_counterexample :
    ReachableAny c5BadState ∧
    lookupA c5BadState.locks "t1" = some c5Lock1 ∧
    LockManager.isExpired 0 c5Lock1 = false ∧
    c5Lock1.path = "/dst" ∧
    lookupA c5BadState.pathLocks "/dst" = some ["t2"] ∧
    ¬ ("t1" ∈ (["t2"] : List String)) := by
  refine ⟨?_, by decide, by decide, by decide, by decide, by decide⟩
  have h1 : ReachableAny c5State1 :=
    ReachableAny.createStep LockState.init 0 3600 "t1" "/dst" "o1"
      LockScope.exclusive LockDepth.infinity none c5Lock1 c5State1
      ReachableAny.init (by decide) (by decide)
  have h2 : ReachableAny c5State2 :=
    ReachableAny.createStep c5State1 0 3600 "t2" "/src" "o2"
      LockScope.exclusive LockDepth.infinity none c5Lock2 c5State2
      h1 (by decide) (by decide)
  exact ReachableAny.movePathStep c5State2 "/src" "/dst" h2

/-- C5 (amended): the lock-index invariants hold in every state reachable
by `createLock`, `removeLock`, `refreshLock`, `removeLocksForPath`,
`moveLocksForPath` and the expiry sweep, provided every
`moveLocksForPath` call targets a destination that currently holds no
locks (or moves from a source that holds none, a no-op): (i) every token
in `byPath[p]` resolves via `byToken` to a lock with `path == p`
(`LMInv.pathIdx`), and every lock in `byToken` — in particular every
non-expired one — has its token indexed under its path
(`LMInv.tokIdx`), so a lock is in both indexes or in neither.  Without
the destination restriction the property fails
(`lockIndex_move_counterexample`). -/
theorem lmInv_of_reachableSafe (st : LockState) (h : ReachableSafe st) :
    LockManager.LMInv st := by
  induction h with
  | init => exact LockManager.lmInv_init
  | createStep st now dflt tok path owner scope depth timeout? lock st' _ hfresh hc ih =>
    exact LockManager.lmInv_createLock st now dflt tok path owner scope depth
      timeout? lock st' ih hfresh hc
  | removeStep st tok _ ih => exact LockManager.lmInv_removeLock st tok ih
  | refreshStep st now dflt tok timeout? _ ih =>
    exact LockManager.lmInv_refreshLock st now dflt tok timeout? ih
  | removePathStep st path _ ih =>
    exact LockManager.lmInv_removeLocksForPath st path ih
  | movePathStep st fromPath toPath _ hsafe ih =>
    exact LockManager.lmInv_moveLocksForPath st fromPath toPath ih hsafe
  | cleanupStep st now _ ih => exact LockManager.lmInv_cleanupExpiredLocks st now ih

/-- Witness for `lmInv_of_reachableSafe`: the invariants at the concrete
state reached by one `createLock('/dst')`. -/
theorem lmInv_of_reachableSafe_witness : LockManager.LMInv c5State1 :=
  lmInv_of_reachableSafe c5State1
    (ReachableSafe.createStep LockState.init 0 3600 "t1" "/dst" "o1"
      LockScope.exclusive LockDepth.infinity none c5Lock1 c5State1
      ReachableSafe.init (by decide) (by decide))

/-! ## Canonical paths and path segments -/

/-- A valid segment list: each piece is nonempty and slash-free.  A path
is *canonical* when it equals `mkPath segs` for a valid `segs` (the root
being `mkPath []`). -/
def validSegs (segs : List (List Char)) : Prop :=
  ∀ p ∈ segs, p ≠ [] ∧ '/' ∉ p

instance (segs : List (List Char)) : Decidable (validSegs segs) :=
  inferInstanceAs (Decidable (∀ p ∈ segs, p ≠ [] ∧ '/' ∉ p))

theorem segsOf_valid (s : String) : validSegs (LockManager.segsOf s) := by
  intro p hp
  unfold LockManager.segsOf at hp
  constructor
  · have := List.of_mem_filter hp
    simpa using this
  · exact not_slash_mem_splitCh s.data p (List.mem_of_mem_filter hp)

theorem joinCh_ne_nil (ps : List (List Char)) (hne : ps ≠ [])
    (hv : ∀ p ∈ ps, p ≠ []) : joinCh ps ≠ [] := by
  rcases ps with _ | ⟨p, ps'⟩
  · exact absurd rfl hne
  · rcases ps' with _ | ⟨q, rest⟩
    · exact hv p (List.mem_cons_self p [])
    · simp only [joinCh]
      intro h
      have := congrArg List.length h
      simp at this

theorem getLast?_mem_of_eq (l : List Char) (c : Char) (h : l.getLast? = some c) :
    c ∈ l := by
  obtain ⟨hne, hc⟩ := List.mem_getLast?_eq_getLast (l := l) (x := c) (by rw [h]; rfl)
  rw [hc]
  exact List.getLast_mem hne

theorem getLast?_cons_ne_nil (x : Char) (l : List Char) (h : l ≠ []) :
    (x :: l).getLast? = l.getLast? := by
  rw [show x :: l = [x] ++ l from rfl, List.getLast?_append_of_ne_nil [x] h]

theorem getLast?_joinCh (ps : List (List Char)) (hne : ps ≠ [])
    (hv : validSegs ps) : ∃ c, (joinCh ps).getLast? = some c ∧ c ≠ '/' := by
  induction ps with
  | nil => exact absurd rfl hne
  | cons p ps' ih =>
    rcases ps' with _ | ⟨q, rest⟩
    · have hp := hv p (List.mem_cons_self p [])
      rcases hl : p.getLast? with _ | c
      · exact absurd (List.getLast?_eq_none_iff.mp hl) hp.1
      · exact ⟨c, by simpa [joinCh] using hl,
          fun hc => hp.2 (hc ▸ getLast?_mem_of_eq p c hl)⟩
    · have hv' : validSegs (q :: rest) := fun x hx => hv x (List.mem_cons_of_mem p hx)
      obtain ⟨c, hc, hcs⟩ := ih (by simp) hv'
      refine ⟨c, ?_, hcs⟩
      have hjoin_ne : joinCh (q :: rest) ≠ [] :=
        joinCh_ne_nil _ (by simp) (fun x hx => (hv' x hx).1)
      calc (joinCh (p :: q :: rest)).getLast?
          = (p ++ '/' :: joinCh (q :: rest)).getLast? := rfl
        _ = ('/' :: joinCh (q :: rest)).getLast? :=
            List.getLast?_append_of_ne_nil p (by simp)
        _ = (joinCh (q :: rest)).getLast? := getLast?_cons_ne_nil _ _ hjoin_ne
        _ = some c := hc

/-- A string that starts with `/` and has no stripped trailing slash is a
fixed point of `LockManager.normalizePath`. -/
theorem lmNormalize_fixed (p : String) (hpre : listPre ['/'] p.data = true)
    (hcond : (decide (p.data.length > 1) && decide (p.data.getLast? = some '/')) = false) :
    LockManager.normalizePath p = p := by
  unfold LockManager.normalizePath
  simp only [hpre, if_true, hcond, Bool.false_eq_true, if_false]

theorem normalizePath_mkPath (segs : List (List Char)) (hv : validSegs segs) :
    LockManager.normalizePath (LockManager.mkPath segs) = LockManager.mkPath segs := by
  have hdata : (LockManager.mkPath segs).data = '/' :: joinCh segs := rfl
  apply lmNormalize_fixed
  · rw [hdata]; simp [listPre]
  · rw [hdata]
    rcases hs : segs with _ | ⟨p, ps⟩
    · decide
    · rw [← hs]
      have hne : segs ≠ [] := by rw [hs]; simp
      obtain ⟨c, hc, hcs⟩ := getLast?_joinCh segs hne hv
      have hjoin_ne : joinCh segs ≠ [] :=
        joinCh_ne_nil segs hne (fun x hx => (hv x hx).1)
      have hlast : ('/' :: joinCh segs).getLast? = some c := by
        rw [getLast?_cons_ne_nil _ _ hjoin_ne, hc]
      simp [hlast, hcs]

theorem segsOf_mkPath (segs : List (List Char)) (hv : validSegs segs) :
    LockManager.segsOf (LockManager.mkPath segs) = segs := by
  unfold LockManager.segsOf LockManager.mkPath
  have hdata : (⟨'/' :: joinCh segs⟩ : String).data = '/' :: joinCh segs := rfl
  rw [hdata]
  have hsplit_head : splitCh ('/' :: joinCh segs) = [] :: splitCh (joinCh segs) := by
    simp [splitCh]
  rw [hsplit_head]
  rcases hs : segs with _ | ⟨p, ps⟩
  · simp [joinCh, splitCh]
  · rw [← hs]
    have hne : segs ≠ [] := by rw [hs]; simp
    rw [splitCh_joinCh segs hne (fun x hx => (hv x hx).2)]
    have : List.filter (fun p => decide (p ≠ [])) ([] :: segs) =
        List.filter (fun p => decide (p ≠ [])) segs := by
      simp [List.filter_cons]
    rw [this]
    apply List.filter_eq_self.mpr
    intro a ha
    simpa using (hv a ha).1

/-- Segment-wise proper-ancestor test: the segments of `L` are a proper
prefix of the segments of `P` (so `/a` covers `/a/b` but not `/ab`). -/
def segIsProperAncestorB (L P : String) : Bool :=
  let sL := LockManager.segsOf L
  let sP := LockManager.segsOf P
  decide (sP.take sL.length = sL) && decide (sL.length < sP.length)

theorem segAncestor_iff_mkPath_take (L : String) (segsP : List (List Char))
    (hvP : validSegs segsP)
    (hcanL : ∃ segs, validSegs segs ∧ L = LockManager.mkPath segs) :
    segIsProperAncestorB L (LockManager.mkPath segsP) = true ↔
    ∃ i, i < segsP.length ∧ L = LockManager.mkPath (segsP.take i) := by
  obtain ⟨sL, hvL, rfl⟩ := hcanL
  unfold segIsProperAncestorB
  rw [segsOf_mkPath _ hvL, segsOf_mkPath _ hvP]
  simp only [Bool.and_eq_true, decide_eq_true_eq]
  constructor
  · rintro ⟨htake, hlen⟩
    exact ⟨sL.length, hlen, by rw [htake]⟩
  · rintro ⟨i, hi, heq⟩
    have hvTake : validSegs (segsP.take i) :=
      fun p hp => hvP p (List.take_subset i segsP hp)
    have hseq : sL = segsP.take i := by
      calc sL = LockManager.segsOf (LockManager.mkPath sL) := (segsOf_mkPath sL hvL).symm
        _ = LockManager.segsOf (LockManager.mkPath (segsP.take i)) := by rw [heq]
        _ = segsP.take i := segsOf_mkPath _ hvTake
    have hlen : sL.length = i := by
      rw [hseq, List.length_take, min_eq_left hi.le]
    constructor
    · rw [hlen, ← hseq]
    · rw [hlen]; exact hi

/-! ## Characterizations of the lock queries -/

theorem getLock_eq_some (st : LockState) (now : Nat) (t : String) (l : WebDAVLock) :
    LockManager.getLock st now t = some l ↔
    lookupA st.locks t = some l ∧ LockManager.isExpired now l = false := by
  unfold LockManager.getLock
  rcases h : lookupA st.locks t with _ | lock
  · simp [h]
  · rcases hexp : LockManager.isExpired now lock with _ | _
    · simp only [h, hexp, Bool.false_eq_true, if_false, Option.some.injEq]
      constructor
      · rintro rfl; exact ⟨rfl, hexp⟩
      · rintro ⟨he, _⟩; exact he
    · simp only [h, hexp, if_true]
      constructor
      · intro h'; exact Option.noConfusion h'
      · rintro ⟨he, hexp'⟩
        cases Option.some.inj he
        rw [hexp] at hexp'
        exact Bool.noConfusion hexp'

theorem mem_getLocksForPath (st : LockState) (now : Nat) (q : String) (l : WebDAVLock)
    (hinv : LockManager.LMInv st) :
    l ∈ LockManager.getLocksForPath st now q ↔
    ∃ t, lookupA st.locks t = some l ∧ LockManager.isExpired now l = false ∧
      l.path = LockManager.normalizePath q := by
  unfold LockManager.getLocksForPath
  rcases hq : lookupA st.pathLocks (LockManager.normalizePath q) with _ | ts
  · simp only [hq, List.not_mem_nil, false_iff, not_exists]
    rintro t ⟨hl, hexp, hpath⟩
    obtain ⟨ts₀, hts₀, _⟩ := hinv.tokIdx t l hl
    rw [hpath, hq] at hts₀
    exact Option.noConfusion hts₀
  · simp only [hq, List.mem_filterMap]
    constructor
    · rintro ⟨t, htmem, hget⟩
      obtain ⟨hl, hexp⟩ := (getLock_eq_some st now t l).mp hget
      obtain ⟨l', hl', hlp'⟩ := hinv.pathIdx _ ts hq t htmem
      rw [hl] at hl'
      cases hl'
      exact ⟨t, hl, hexp, hlp'⟩
    · rintro ⟨t, hl, hexp, hpath⟩
      obtain ⟨ts₀, hts₀, hm₀⟩ := hinv.tokIdx t l hl
      rw [hpath, hq] at hts₀
      cases hts₀
      exact ⟨t, hm₀, (getLock_eq_some st now t l).mpr ⟨hl, hexp⟩⟩

theorem filter_length_pos_iff {α : Type} (p : α → Bool) (xs : List α) :
    0 < (xs.filter p).length ↔ ∃ a ∈ xs, p a = true := by
  rw [List.length_pos]
  constructor
  · intro h
    rcases List.exists_mem_of_ne_nil _ h with ⟨a, ha⟩
    exact ⟨a, (List.mem_filter.mp ha).1, (List.mem_filter.mp ha).2⟩
  · rintro ⟨a, ha, hpa⟩
    intro hnil
    have hmem : a ∈ xs.filter p := List.mem_filter.mpr ⟨ha, hpa⟩
    rw [hnil] at hmem
    exact absurd hmem (List.not_mem_nil a)

theorem if_then_true_eq (c : Prop) [Decidable c] (b : Bool) :
    ((if c then true else b) = true) ↔ c ∨ b = true := by
  split
  · simp [*]
  · simp [*]

@[simp] theorem passesExclude_none (l : WebDAVLock) :
    LockManager.passesExclude none l = true := rfl

theorem isLocked_iff (st : LockState) (now : Nat) (segsP : List (List Char))
    (hv : validSegs segsP) (hinv : LockManager.LMInv st)
    (hcanonLocks : ∀ t l, lookupA st.locks t = some l →
      ∃ segs, validSegs segs ∧ l.path = LockManager.mkPath segs) :
    LockManager.isLocked st now (LockManager.mkPath segsP) none = true ↔
    ∃ t l, lookupA st.locks t = some l ∧ LockManager.isExpired now l = false ∧
      (l.path = LockManager.mkPath segsP ∨
        (l.depth = LockDepth.infinity ∧
          segIsProperAncestorB l.path (LockManager.mkPath segsP) = true)) := by
  have hnorm : LockManager.normalizePath (LockManager.mkPath segsP) =
      LockManager.mkPath segsP := normalizePath_mkPath segsP hv
  have hsegs : LockManager.segsOf (LockManager.mkPath segsP) = segsP :=
    segsOf_mkPath segsP hv
  unfold LockManager.isLocked
  simp only [hnorm, hsegs, passesExclude_none, Bool.and_true,
    if_then_true_eq, List.any_eq_true, List.mem_range, decide_eq_true_eq,
    filter_length_pos_iff]
  constructor
  · rintro (⟨l, hmem, hpath⟩ | ⟨i, hi, l, hmem, hdepth⟩)
    · obtain ⟨t, hl, hexp, _⟩ := (mem_getLocksForPath st now _ l hinv).mp hmem
      exact ⟨t, l, hl, hexp, Or.inl (by
        simpa [decide_eq_true_eq] using hpath)⟩
    · have hvTake : validSegs (segsP.take i) :=
        fun x hx => hv x (List.take_subset i segsP hx)
      obtain ⟨t, hl, hexp, hpath⟩ := (mem_getLocksForPath st now _ l hinv).mp hmem
      rw [normalizePath_mkPath _ hvTake] at hpath
      refine ⟨t, l, hl, hexp, Or.inr ⟨by simpa [decide_eq_true_eq] using hdepth, ?_⟩⟩
      exact (segAncestor_iff_mkPath_take l.path segsP hv
        ⟨segsP.take i, hvTake, hpath⟩).mpr ⟨i, hi, hpath⟩
  · rintro ⟨t, l, hl, hexp, hcase | ⟨hdep, hanc⟩⟩
    · left
      refine ⟨l, (mem_getLocksForPath st now _ l hinv).mpr ⟨t, hl, hexp, ?_⟩, ?_⟩
      · rw [hnorm]; exact hcase
      · simp [hcase]
    · right
      obtain ⟨i, hi, hpath⟩ := (segAncestor_iff_mkPath_take l.path segsP hv
        (hcanonLocks t l hl)).mp hanc
      have hvTake : validSegs (segsP.take i) :=
        fun x hx => hv x (List.take_subset i segsP hx)
      refine ⟨i, hi, l, (mem_getLocksForPath st now _ l hinv).mpr
        ⟨t, hl, hexp, ?_⟩, by simp [hdep]⟩
      rw [normalizePath_mkPath _ hvTake]
      exact hpath

/-- Modelled from the spec's overlap rule: a lock on `L` with depth `dL`
overlaps an operation on `P` iff `L == P`, or `dL` is infinity and `P`
is a path-segment descendant of `L`. -/
def specOverlaps (L : String) (dL : LockDepth) (P : String) : Prop :=
  L = P ∨ (dL = LockDepth.infinity ∧ segIsProperAncestorB L P = true)

/-- The exclusive depth-infinity lock on `/a` used against C3. -/
def c3Lock : WebDAVLock :=
  { token := "tA", path := "/a", owner := "o", timeout := 3600, created := 0,
    depth := LockDepth.infinity, scope := LockScope.exclusive }

/-- Lock-manager state holding only `c3Lock`. -/
def c3State : LockState :=
  { locks := [("tA", c3Lock)], pathLocks := [("/a", ["tA"])], activeStreams := [] }

/-- C3 (counterexample): `canLock('/a/b/c', shared)` returns `true` even
though a non-expired exclusive depth-infinity lock on `/a` overlaps
`/a/b/c` under the spec's overlap rule — the shared branch only inspects
locks whose path is exactly the requested path. -/
theorem canLock_shared_counterexample :
    LockManager.canLock c3State 0 "/a/b/c" LockScope.shared = true ∧
    lookupA c3State.locks "tA" = some c3Lock ∧
    LockManager.isExpired 0 c3Lock = false ∧
    c3Lock.scope = LockScope.exclusive ∧
    c3Lock.depth = LockDepth.infinity ∧
    segIsProperAncestorB c3Lock.path "/a/b/c" = true := by
  refine ⟨by decide, by decide, by decide, by decide, by decide, by decide⟩

/-- C3 (amended): over canonical paths and under the lock-index
invariants, `canLock(p, exclusive)` is true iff no non-expired lock
overlaps `p` in the spec's sense (`specOverlaps`), while
`canLock(p, shared)` is true iff no non-expired *exclusive* lock has path
exactly `p` — ancestor locks, of any scope and depth, are ignored by the
shared branch (see `canLock_shared_counterexample`). -/
theorem canLock_characterization (st : LockState) (now : Nat)
    (segsP : List (List Char)) (hv : validSegs segsP)
    (hinv : LockManager.LMInv st)
    (hcanonLocks : ∀ t l, lookupA st.locks t = some l →
      ∃ segs, validSegs segs ∧ l.path = LockManager.mkPath segs) :
    (LockManager.canLock st now (LockManager.mkPath segsP) LockScope.exclusive = true ↔
      ∀ t l, lookupA st.locks t = some l → LockManager.isExpired now l = false →
        ¬ specOverlaps l.path l.depth (LockManager.mkPath segsP)) ∧
    (LockManager.canLock st now (LockManager.mkPath segsP) LockScope.shared = true ↔
      ∀ t l, lookupA st.locks t = some l → LockManager.isExpired now l = false →
        l.scope = LockScope.exclusive → l.path ≠ LockManager.mkPath segsP) := by
  have hnorm : LockManager.normalizePath (LockManager.mkPath segsP) =
      LockManager.mkPath segsP := normalizePath_mkPath segsP hv
  constructor
  · have hexcl : LockManager.canLock st now (LockManager.mkPath segsP) LockScope.exclusive =
        ! LockManager.isLocked st now
            (LockManager.normalizePath (LockManager.mkPath segsP)) none := rfl
    rw [hexcl, hnorm, Bool.not_eq_true', Bool.eq_false_iff, ne_eq,
      isLocked_iff st now segsP hv hinv hcanonLocks]
    unfold specOverlaps
    push_neg
    exact Iff.rfl
  · have hshared : LockManager.canLock st now (LockManager.mkPath segsP) LockScope.shared =
        decide ((List.filter (fun lock => decide (lock.scope = LockScope.exclusive))
          (LockManager.getLocksForPath st now
            (LockManager.normalizePath (LockManager.mkPath segsP)))).length = 0) := rfl
    rw [hshared, hnorm, decide_eq_true_eq, List.length_eq_zero]
    constructor
    · intro hnil t l hl hexp hscope hpath
      have hmem : l ∈ LockManager.getLocksForPath st now (LockManager.mkPath segsP) :=
        (mem_getLocksForPath st now _ l hinv).mpr ⟨t, hl, hexp, by rw [hnorm]; exact hpath⟩
      have : l ∈ List.filter (fun lock => decide (lock.scope = LockScope.exclusive))
          (LockManager.getLocksForPath st now (LockManager.mkPath segsP)) :=
        List.mem_filter.mpr ⟨hmem, by simp [hscope]⟩
      rw [hnil] at this
      exact absurd this (List.not_mem_nil l)
    · intro h
      rcases hfil : List.filter (fun lock => decide (lock.scope = LockScope.exclusive))
          (LockManager.getLocksForPath st now (LockManager.mkPath segsP)) with _ | ⟨l, rest⟩
      · exact hfil
      · exfalso
        have hmem : l ∈ List.filter (fun lock => decide (lock.scope = LockScope.exclusive))
            (LockManager.getLocksForPath st now (LockManager.mkPath segsP)) := by
          rw [hfil]; exact List.mem_cons_self l rest
        obtain ⟨hbase, hscope⟩ := List.mem_filter.mp hmem
        obtain ⟨t, hl, hexp, hpath⟩ := (mem_getLocksForPath st now _ l hinv).mp hbase
        rw [hnorm] at hpath
        exact h t l hl hexp (by simpa using hscope) hpath

/-- Witness for `canLock_characterization`: in the empty lock state any
canonical path can be locked exclusively. -/
theorem canLock_characterization_witness :
    LockManager.canLock LockState.init 0 (LockManager.mkPath [['a']])
      LockScope.exclusive = true := by
  have h := (canLock_characterization LockState.init 0 [['a']] (by decide)
    LockManager.lmInv_init (by intro t l hl; simp [LockState.init] at hl)).1
  exact h.mpr (by intro t l hl; simp [LockState.init] at hl)

/-- The exclusive depth-infinity lock on `/a` used against C2. -/
def c2Lock : WebDAVLock :=
  { token := "tA", path := "/a", owner := "o", timeout := 3600, created := 0,
    depth := LockDepth.infinity, scope := LockScope.exclusive }

/-- Lock-manager state holding only `c2Lock`. -/
def c2State : LockState :=
  { locks := [("tA", c2Lock)], pathLocks := [("/a", ["tA"])], activeStreams := [] }

/-- C2 (counterexample): `hasValidLockToken('/ab', tA)` returns `true`
for a depth-infinity lock on `/a`, although `/ab` is neither equal to
`/a` nor a path-segment descendant of it — the source tests
`normalizedPath.startsWith(lock.path)`, a character-wise prefix. -/
theorem hasValidLockToken_counterexample :
    LockManager.hasValidLockToken c2State 0 "/ab" "tA" = true ∧
    c2Lock.path ≠ LockManager.normalizePath "/ab" ∧
    segIsProperAncestorB c2Lock.path (LockManager.normalizePath "/ab") = false := by
  refine ⟨by decide, by decide, by decide⟩

/-- C2 (amended): `hasValidLockToken(p, t)` is true iff `t` resolves to a
non-expired lock whose path equals the normalized `p`, or whose depth is
infinity and whose path is a *character-wise* prefix of the normalized
`p` (`startsWith`), so a lock on `/a` also authorizes `/ab`
(see `hasValidLockToken_counterexample`). -/
theorem hasValidLockToken_iff (st : LockState) (now : Nat) (p t : String) :
    LockManager.hasValidLockToken st now p t = true ↔
    ∃ l, lookupA st.locks t = some l ∧ LockManager.isExpired now l = false ∧
      (l.path = LockManager.normalizePath p ∨
        (l.depth = LockDepth.infinity ∧
          listPre l.path.data (LockManager.normalizePath p).data = true)) := by
  unfold LockManager.hasValidLockToken
  rcases hg : LockManager.getLock st now t with _ | lock
  · simp only [hg, Bool.false_eq_true, false_iff, not_exists]
    rintro l ⟨hl, hexp, _⟩
    rw [(getLock_eq_some st now t l).mpr ⟨hl, hexp⟩] at hg
    exact Option.noConfusion hg
  · obtain ⟨hl, hexp⟩ := (getLock_eq_some st now t lock).mp hg
    simp only [hg]
    by_cases hpath : lock.path = LockManager.normalizePath p
    · simp only [if_pos hpath, true_iff]
      exact ⟨lock, hl, hexp, Or.inl hpath⟩
    · rw [if_neg hpath]
      by_cases hpre : (decide (lock.depth = LockDepth.infinity) &&
          listPre lock.path.data (LockManager.normalizePath p).data) = true
      · simp only [hpre, if_true, true_iff]
        obtain ⟨hdep, hlp⟩ := Bool.and_eq_true .. |>.mp hpre
        exact ⟨lock, hl, hexp, Or.inr ⟨by simpa using hdep, hlp⟩⟩
      · simp only [hpre, Bool.false_eq_true, if_false, false_iff, not_exists]
        rintro l ⟨hl', hexp', hcase⟩
        rw [hl] at hl'
        cases Option.some.inj hl'
        rcases hcase with hc | ⟨hdep, hlp⟩
        · exact hpath hc
        · exact hpre (by simp [hdep, hlp])

/-! ## DELETE and the lock purge -/

theorem removeLocksForPath_purges (st : LockState) (path : String)
    (hinv : LockManager.LMInv st) :
    (∀ t l, lookupA (LockManager.removeLocksForPath st path).locks t = some l →
      l.path ≠ LockManager.normalizePath path) ∧
    lookupA (LockManager.removeLocksForPath st path).pathLocks
      (LockManager.normalizePath path) = none := by
  rcases hs : lookupA st.pathLocks (LockManager.normalizePath path) with _ | s
  · simp only [LockManager.removeLocksForPath, hs]
    refine ⟨?_, trivial⟩
    intro t l hl hp
    obtain ⟨ts, hts, _⟩ := hinv.tokIdx t l hl
    rw [hp, hs] at hts
    exact Option.noConfusion hts
  · simp only [LockManager.removeLocksForPath, hs]
    constructor
    · intro t l hl hp
      rw [LockManager.lookupA_foldl_eraseA _ _ _ hinv.ndLocks] at hl
      by_cases htm : t ∈ s
      · rw [if_pos htm] at hl
        exact Option.noConfusion hl
      · rw [if_neg htm] at hl
        obtain ⟨ts, hts, hm⟩ := hinv.tokIdx t l hl
        rw [hp, hs] at hts
        cases hts
        exact htm hm
    · exact lookupA_eraseA_self _ _ hinv.ndPaths

/-- What a 204 from `handleDelete` did to the state. -/
theorem handleDelete_204 (st : SrvState) (now : Nat) (rp : String)
    (lth ihdr : Option String) (st' : SrvState) (p : String)
    (hn : WebDAVServer.normalizePath rp = some p)
    (h : handleDelete st now rp lth ihdr = some (204, st')) :
    st' = { fs := fsDelete st.fs p, lm := LockManager.removeLocksForPath st.lm p } := by
  unfold handleDelete at h
  simp only [hn] at h
  rcases hex : fsExists st.fs p with _ | _
  · simp [hex] at h
  · simp only [hex, Bool.not_true, Bool.false_eq_true, if_false] at h
    by_cases hroot : p = "/"
    · simp [hroot] at h
    · simp only [if_neg hroot] at h
      by_cases hlocked : LockManager.isLocked st.lm now p none = true
      · simp only [hlocked, if_true] at h
        rcases het : extractLockToken lth ihdr with _ | tok
        · simp [het] at h
        · simp only [het] at h
          by_cases hval : LockManager.hasValidLockToken st.lm now p tok = true
          · simp only [hval, Bool.not_true, Bool.false_eq_true, if_false] at h
            simp only [Option.some.injEq, Prod.mk.injEq] at h
            exact h.2.symm
          · simp only [Bool.not_eq_true] at hval
            simp [hval] at h
      · simp only [Bool.not_eq_true] at hlocked
        simp only [hlocked, Bool.false_eq_true, if_false] at h
        simp only [Option.some.injEq, Prod.mk.injEq] at h
        exact h.2.symm

/-- C1 (amended): a successful DELETE (status 204) of request path `rp`
normalizing to `p` removes every lock whose path is exactly the
lock-normalized `p` — and the `byPath` entry for it — but locks held on
proper descendants of `p` are not removed (see
`handleDelete_descendant_lock_counterexample`). -/
theorem handleDelete_purges_exact_path_locks (st : SrvState) (now : Nat)
    (rp : String) (lth ihdr : Option String) (st' : SrvState) (p : String)
    (hinv : LockManager.LMInv st.lm)
    (hn : WebDAVServer.normalizePath rp = some p)
    (h : handleDelete st now rp lth ihdr = some (204, st')) :
    (∀ t l, lookupA st'.lm.locks t = some l →
      l.path ≠ LockManager.normalizePath p) ∧
    lookupA st'.lm.pathLocks (LockManager.normalizePath p) = none := by
  have hst' := handleDelete_204 st now rp lth ihdr st' p hn h
  rw [hst']
  exact removeLocksForPath_purges st.lm p hinv

/-- Delete scenario for the C1 witness: no locks at all. -/
def c1WState : SrvState :=
  { fs := [("/", FsNode.dir), ("/a", FsNode.file [])], lm := LockState.init }

/-- The state `handleDelete` leaves behind in the C1 witness scenario. -/
def c1AfterState : SrvState :=
  { fs := [("/", FsNode.dir)], lm := LockState.init }

/-- Witness for `handleDelete_purges_exact_path_locks` at a concrete
DELETE of `/a`. -/
theorem handleDelete_purges_exact_path_locks_witness :
    lookupA c1AfterState.lm.pathLocks (LockManager.normalizePath "/a") = none :=
  (handleDelete_purges_exact_path_locks c1WState 0 "/a" none none c1AfterState "/a"
    LockManager.lmInv_init (by decide) (by decide)).2

/-- The surviving descendant lock of the C1 counterexample. -/
def c1Lock : WebDAVLock :=
  { token := "tB", path := "/a/b", owner := "o", timeout := 3600, created := 0,
    depth := LockDepth.infinity, scope := LockScope.exclusive }

/-- Server state with a collection `/a` containing `/a/b`, the latter
holding a non-expired lock. -/
def c1State : SrvState :=
  { fs := [("/", FsNode.dir), ("/a", FsNode.dir), ("/a/b", FsNode.file [1, 2])],
    lm := { locks := [("tB", c1Lock)], pathLocks := [("/a/b", ["tB"])],
            activeStreams := [] } }

/-- C1 (counterexample): DELETE of the collection `/a` succeeds with 204
and removes the subtree, yet the non-expired lock on the descendant
`/a/b` survives in both indexes — `removeLocksForPath` only purges locks
whose path is exactly the deleted path. -/
theorem handleDelete_descendant_lock_counterexample :
    handleDelete c1State 0 "/a" none none =
      some (204, { fs := [("/", FsNode.dir)], lm := c1State.lm }) ∧
    lookupA c1State.lm.locks "tB" = some c1Lock ∧
    lookupA c1State.lm.pathLocks "/a/b" = some ["tB"] ∧
    LockManager.isExpired 0 c1Lock = false ∧
    segIsProperAncestorB "/a" c1Lock.path = true := by
  refine ⟨by decide, by decide, by decide, by decide, by decide⟩

/-! ## The path normalizer on absolute inputs -/

theorem listPre_single_iff {α : Type} [DecidableEq α] (a : α) (l : List α) :
    listPre [a] l = true ↔ ∃ tl, l = a :: tl := by
  rcases l with _ | ⟨b, tl⟩
  · simp [listPre]
  · constructor
    · intro h
      have hab : a = b := by
        by_contra hne
        simp [listPre, hne] at h
      exact ⟨tl, by rw [hab]⟩
    · rintro ⟨tl', he⟩
      cases he
      simp [listPre]

theorem decodeGo_cons_ne (fuel : Nat) (c : Char) (tail : List Char) (hc : c ≠ '%') :
    decodeGo (fuel + 1) (c :: tail) = (decodeGo fuel tail).map (fun d => c :: d) := by
  have h : decodeGo (fuel + 1) (c :: tail) =
      if c ≠ '%' then (decodeGo fuel tail).map (fun d => c :: d)
      else
        match utf8Decode1 (c :: tail) with
        | none => none
        | some (ch, rest) => (decodeGo fuel rest).map (fun d => ch :: d) := rfl
  rw [h, if_pos hc]

theorem decodeURIComp_cons_ne (c : Char) (tail : List Char) (hc : c ≠ '%') :
    decodeURIComp (c :: tail) = (decodeGo tail.length tail).map (fun d => c :: d) := by
  unfold decodeURIComp
  simp only [List.length_cons]
  exact decodeGo_cons_ne tail.length c tail hc

theorem decodeURIComp_no_pct (l : List Char) (h : '%' ∉ l) :
    decodeURIComp l = some l := by
  induction l with
  | nil => rfl
  | cons c rest ih =>
    have hc : c ≠ '%' := fun hh => h (hh ▸ List.mem_cons_self c rest)
    have hrest : '%' ∉ rest := fun hh => h (List.mem_cons_of_mem c hh)
    rw [decodeURIComp_cons_ne c rest hc,
      show decodeGo rest.length rest = decodeURIComp rest from rfl, ih hrest]
    rfl

theorem decodeURIComp_head_slash (xs dec : List Char)
    (h : decodeURIComp ('/' :: xs) = some dec) :
    ∃ d, dec = '/' :: d := by
  rw [decodeURIComp_cons_ne '/' xs (by decide)] at h
  rcases hx : decodeGo xs.length xs with _ | d
  · rw [hx] at h; exact Option.noConfusion h
  · rw [hx] at h
    have h2 : '/' :: d = dec := Option.some.inj h
    exact ⟨d, h2.symm⟩

/-- The segment properties `posixNormalize` guarantees on absolute
paths: nonempty, not `.`, not `..`, slash-free. -/
def goodSegs (segs : List (List Char)) : Prop :=
  ∀ p ∈ segs, p ≠ [] ∧ p ≠ ['.'] ∧ p ≠ ['.', '.'] ∧ '/' ∉ p

instance (segs : List (List Char)) : Decidable (goodSegs segs) :=
  inferInstanceAs (Decidable (∀ p ∈ segs, _ ∧ _ ∧ _ ∧ _))

theorem goodSegs_valid (segs : List (List Char)) (h : goodSegs segs) :
    validSegs segs :=
  fun p hp => ⟨(h p hp).1, (h p hp).2.2.2⟩

theorem normSegsGo_nil (a : Bool) (acc : List (List Char)) :
    normSegsGo a acc [] = acc.reverse := rfl

theorem normSegsGo_skip (a : Bool) (acc : List (List Char)) (s : List Char)
    (rest : List (List Char)) (h : s = [] ∨ s = ['.']) :
    normSegsGo a acc (s :: rest) = normSegsGo a acc rest := by
  rcases h with rfl | rfl <;> simp [normSegsGo]

theorem normSegsGo_push (a : Bool) (acc : List (List Char)) (s : List Char)
    (rest : List (List Char)) (h1 : s ≠ []) (h2 : s ≠ ['.']) (h3 : s ≠ ['.', '.']) :
    normSegsGo a acc (s :: rest) = normSegsGo a (s :: acc) rest := by
  simp [normSegsGo, h1, h2, h3]

theorem normSegsGo_pop (a : Bool) (t : List Char) (ts rest : List (List Char))
    (h : t ≠ ['.', '.']) :
    normSegsGo a (t :: ts) (['.', '.'] :: rest) = normSegsGo a ts rest := by
  simp [normSegsGo, h]

theorem normSegsGo_ddot_nil_false (rest : List (List Char)) :
    normSegsGo false [] (['.', '.'] :: rest) = normSegsGo false [] rest := by
  simp [normSegsGo]

theorem normSegsGo_ddot_top_false (ts rest : List (List Char)) :
    normSegsGo false (['.', '.'] :: ts) (['.', '.'] :: rest) =
      normSegsGo false (['.', '.'] :: ts) rest := by
  simp [normSegsGo]

theorem normSegsGo_false_good (rest : List (List Char)) :
    ∀ acc, goodSegs acc → (∀ x ∈ rest, '/' ∉ x) →
      goodSegs (normSegsGo false acc rest) := by
  induction rest with
  | nil =>
    intro acc hacc _
    intro p hp
    rw [normSegsGo_nil, List.mem_reverse] at hp
    exact hacc p hp
  | cons s rest' ih =>
    intro acc hacc hrest
    have hrest' : ∀ x ∈ rest', '/' ∉ x :=
      fun x hx => hrest x (List.mem_cons_of_mem s hx)
    by_cases hs1 : s = [] ∨ s = ['.']
    · rw [normSegsGo_skip _ _ _ _ hs1]
      exact ih acc hacc hrest'
    · push_neg at hs1
      by_cases hs2 : s = ['.', '.']
      · subst hs2
        rcases acc with _ | ⟨t, ts⟩
        · rw [normSegsGo_ddot_nil_false]
          exact ih [] (fun p hp => absurd hp (List.not_mem_nil p)) hrest'
        · by_cases ht : t = ['.', '.']
          · subst ht
            rw [normSegsGo_ddot_top_false]
            exact ih _ hacc hrest'
          · rw [normSegsGo_pop _ _ _ _ ht]
            exact ih ts (fun p hp => hacc p (List.mem_cons_of_mem t hp)) hrest'
      · rw [normSegsGo_push _ _ _ _ hs1.1 hs1.2 hs2]
        apply ih
        · intro p hp
          rcases List.mem_cons.mp hp with rfl | hp'
          · exact ⟨hs1.1, hs1.2, hs2, hrest p (List.mem_cons_self p rest')⟩
          · exact hacc p hp'
        · exact hrest'

theorem normSegsGo_plain (rest : List (List Char)) :
    ∀ acc, goodSegs rest → normSegsGo false acc rest = acc.reverse ++ rest := by
  induction rest with
  | nil => intro acc _; simp [normSegsGo_nil]
  | cons s rest' ih =>
    intro acc hg
    have hs := hg s (List.mem_cons_self s rest')
    rw [normSegsGo_push _ _ _ _ hs.1 hs.2.1 hs.2.2.1,
      ih (s :: acc) (fun p hp => hg p (List.mem_cons_of_mem s hp))]
    simp

theorem posixNormalize_abs (s : String) (hne : s.data ≠ [])
    (habs : listPre ['/'] s.data = true) :
    ∃ body, goodSegs body ∧
      ((posixNormalize s).data = '/' :: joinCh body ∨
        (body ≠ [] ∧ (posixNormalize s).data = ('/' :: joinCh body) ++ ['/'])) := by
  have hgood : goodSegs (normSegsGo false [] (splitCh s.data)) :=
    normSegsGo_false_good (splitCh s.data) []
      (fun p hp => absurd hp (List.not_mem_nil p))
      (fun p hp => not_slash_mem_splitCh s.data p hp)
  unfold posixNormalize
  simp only [if_neg hne, habs, Bool.not_true, if_true]
  by_cases hj : joinCh (normSegsGo false [] (splitCh s.data)) = []
  · refine ⟨[], fun p hp => absurd hp (List.not_mem_nil p), Or.inl ?_⟩
    simp only [hj, if_pos rfl]
    rfl
  · have hbody : normSegsGo false [] (splitCh s.data) ≠ [] := by
      intro hb
      rw [hb] at hj
      exact hj rfl
    refine ⟨normSegsGo false [] (splitCh s.data), hgood, ?_⟩
    simp only [if_neg hj]
    by_cases ht : decide (s.data.getLast? = some '/') = true
    · right
      refine ⟨hbody, ?_⟩
      simp only [ht, if_true]
      rfl
    · left
      simp only [Bool.not_eq_true] at ht
      simp only [ht, Bool.false_eq_true, if_false]

theorem ensureLeadingSlash_slash (l : List Char) :
    ensureLeadingSlash ('/' :: l) = '/' :: l := by
  simp [ensureLeadingSlash, listPre]

theorem stripTrailingSlash_canonical (body : List (List Char)) (hg : goodSegs body) :
    stripTrailingSlash ('/' :: joinCh body) = '/' :: joinCh body := by
  rcases hb : body with _ | ⟨q, rest⟩
  · decide
  · rw [← hb]
    have hne : body ≠ [] := by rw [hb]; simp
    obtain ⟨c, hc, hcs⟩ := getLast?_joinCh body hne (goodSegs_valid body hg)
    have hjoin_ne : joinCh body ≠ [] :=
      joinCh_ne_nil body hne (fun x hx => (hg x hx).1)
    have hlast : ('/' :: joinCh body).getLast? = some c := by
      rw [getLast?_cons_ne_nil _ _ hjoin_ne, hc]
    simp [stripTrailingSlash, hlast, hcs]

theorem stripTrailingSlash_trailing (body : List (List Char)) :
    stripTrailingSlash (('/' :: joinCh body) ++ ['/']) = '/' :: joinCh body := by
  have hlast : (('/' :: joinCh body) ++ ['/']).getLast? = some '/' :=
    List.getLast?_concat _
  have hlen : (('/' :: joinCh body) ++ ['/']).length > 1 := by simp
  have hcond : ((('/' :: joinCh body) ++ ['/']).length > 1 &&
      decide ((('/' :: joinCh body) ++ ['/']).getLast? = some '/')) = true := by
    rw [hlast]
    simp [hlen]
  unfold stripTrailingSlash
  rw [if_pos hcond, List.dropLast_concat]

theorem stripDotDot_canonical (body : List (List Char)) (hg : goodSegs body) :
    stripDotDot ('/' :: joinCh body) = '/' :: joinCh body := by
  unfold stripDotDot
  by_cases hcontains : containsSeq ['.', '.'] ('/' :: joinCh body) = true
  · simp only [hcontains, if_true]
    rcases hb : body with _ | ⟨q, rest⟩
    · rw [hb] at hcontains
      exact absurd hcontains (by decide)
    · rw [← hb]
      have hne : body ≠ [] := by rw [hb]; simp
      have hsplit : splitCh ('/' :: joinCh body) = [] :: body := by
        have h1 : splitCh ('/' :: joinCh body) = [] :: splitCh (joinCh body) := by
          simp [splitCh]
        rw [h1, splitCh_joinCh body hne (fun x hx => (hg x hx).2.2.2)]
      rw [hsplit]
      have hfil : List.filter (fun seg => decide (seg ≠ ['.', '.'])) ([] :: body) =
          [] :: body := by
        apply List.filter_eq_self.mpr
        intro a ha
        rcases List.mem_cons.mp ha with rfl | ha'
        · decide
        · simpa using (hg a ha').2.2.1
      rw [hfil]
      have hjoin : joinCh ([] :: body) = '/' :: joinCh body := by
        rw [hb]
        rfl
      rw [hjoin]
      simp
  · simp only [Bool.not_eq_true] at hcontains
    simp [hcontains]

theorem normalizePath_shape (x y : String)
    (habs : listPre ['/'] x.data = true)
    (h : WebDAVServer.normalizePath x = some y) :
    ∃ body, goodSegs body ∧ y = LockManager.mkPath body := by
  unfold WebDAVServer.normalizePath at h
  rcases hdec : decodeURIComp x.data with _ | dec
  · rw [hdec] at h; exact Option.noConfusion h
  · rw [hdec] at h
    obtain ⟨xs, hxs⟩ := (listPre_single_iff '/' x.data).mp habs
    rw [hxs] at hdec
    obtain ⟨d, hd⟩ := decodeURIComp_head_slash xs dec hdec
    have hdata : (⟨dec⟩ : String).data = dec := rfl
    have hne : (⟨dec⟩ : String).data ≠ [] := by rw [hdata, hd]; simp
    have habs' : listPre ['/'] (⟨dec⟩ : String).data = true := by
      rw [hdata, hd]; simp [listPre]
    obtain ⟨body, hg, hshape⟩ := posixNormalize_abs ⟨dec⟩ hne habs'
    refine ⟨body, hg, ?_⟩
    have hy : y = ⟨stripDotDot (stripTrailingSlash (ensureLeadingSlash
        (posixNormalize ⟨dec⟩).data))⟩ := (Option.some.inj h).symm
    rcases hshape with hs | ⟨hbne, hs⟩
    · rw [hy, hs, ensureLeadingSlash_slash, stripTrailingSlash_canonical body hg,
        stripDotDot_canonical body hg]
      rfl
    · rw [hy, hs]
      have happ : ('/' :: joinCh body) ++ ['/'] = '/' :: (joinCh body ++ ['/']) := rfl
      rw [happ, ensureLeadingSlash_slash, ← happ,
        stripTrailingSlash_trailing body, stripDotDot_canonical body hg]
      rfl

theorem posixNormalize_canonical (body : List (List Char)) (hg : goodSegs body) :
    (posixNormalize ⟨'/' :: joinCh body⟩).data = '/' :: joinCh body := by
  rcases hb : body with _ | ⟨q, rest⟩
  · decide
  · rw [← hb]
    have hne : body ≠ [] := by rw [hb]; simp
    have hdt : (⟨'/' :: joinCh body⟩ : String).data = '/' :: joinCh body := rfl
    have hjoin_ne : joinCh body ≠ [] :=
      joinCh_ne_nil body hne (fun x hx => (hg x hx).1)
    obtain ⟨c, hc, hcs⟩ := getLast?_joinCh body hne (goodSegs_valid body hg)
    have hlast : ('/' :: joinCh body).getLast? = some c := by
      rw [getLast?_cons_ne_nil _ _ hjoin_ne, hc]
    have hlne : ('/' :: joinCh body : List Char) ≠ [] := by simp
    have habs : listPre ['/'] ('/' :: joinCh body) = true := by simp [listPre]
    have hsplit : splitCh ('/' :: joinCh body) = [] :: body := by
      have h1 : splitCh ('/' :: joinCh body) = [] :: splitCh (joinCh body) := by
        simp [splitCh]
      rw [h1, splitCh_joinCh body hne (fun x hx => (hg x hx).2.2.2)]
    have hgo : normSegsGo false [] ([] :: body) = body := by
      rw [normSegsGo_skip false [] [] body (Or.inl rfl), normSegsGo_plain body [] hg]
      rfl
    unfold posixNormalize
    simp only [hdt, if_neg hlne, habs, Bool.not_true, hsplit, hgo, hlast,
      if_neg hjoin_ne]
    have hdec : decide (some c = some '/') = false := by simp [hcs]
    simp only [hdec, Bool.false_eq_true, if_false, if_true]

theorem normalizePath_canonical_fixed (body : List (List Char)) (hg : goodSegs body)
    (hnp : '%' ∉ ('/' :: joinCh body : List Char)) :
    WebDAVServer.normalizePath (LockManager.mkPath body) =
      some (LockManager.mkPath body) := by
  unfold WebDAVServer.normalizePath
  have hdata : (LockManager.mkPath body).data = '/' :: joinCh body := rfl
  rw [hdata, decodeURIComp_no_pct _ hnp]
  show some (⟨stripDotDot (stripTrailingSlash (ensureLeadingSlash
      (posixNormalize ⟨'/' :: joinCh body⟩).data))⟩ : String) =
    some (LockManager.mkPath body)
  rw [posixNormalize_canonical body hg, ensureLeadingSlash_slash,
    stripTrailingSlash_canonical body hg, stripDotDot_canonical body hg]
  rfl

/-- C7 (amended): the engine's path normalizer is idempotent on request
paths that begin with `/` (as every Express `req.path` does) *provided*
its output contains no `%` character: `N(x) = y` with `%` ∉ `y` implies
`N(y) = y`.  A percent-encoded percent sign defeats idempotence because
each application percent-decodes once more
(`normalizePath_not_idempotent`).  The concrete equations
`N("/a/./b/../c") = "/a/c"` and `N("/..") = "/"` hold as stated. -/
theorem normalizePath_idempotent_on_slash_inputs :
    (∀ x y : String, listPre ['/'] x.data = true →
      WebDAVServer.normalizePath x = some y →
      '%' ∉ y.data →
      WebDAVServer.normalizePath y = some y) ∧
    WebDAVServer.normalizePath "/a/./b/../c" = some "/a/c" ∧
    WebDAVServer.normalizePath "/.." = some "/" := by
  refine ⟨?_, by decide, by decide⟩
  intro x y habs h hnp
  obtain ⟨body, hg, rfl⟩ := normalizePath_shape x y habs h
  exact normalizePath_canonical_fixed body hg hnp

/-- Witness for `normalizePath_idempotent_on_slash_inputs`: normalizing
`/a//b` gives `/a/b`, which normalizes to itself. -/
theorem normalizePath_idempotent_witness :
    WebDAVServer.normalizePath "/a/b" = some "/a/b" :=
  normalizePath_idempotent_on_slash_inputs.1 "/a//b" "/a/b"
    (by decide) (by decide) (by decide)

/-- C7 (counterexample): the normalizer is not idempotent on inputs with
percent-encoded characters: `N("/%2541") = "/%41"` but
`N("/%41") = "/A"`, so `N(N(x)) ≠ N(x)` at `x = "/%2541"`. -/
theorem normalizePath_not_idempotent :
    WebDAVServer.normalizePath "/%2541" = some "/%41" ∧
    WebDAVServer.normalizePath "/%41" = some "/A" ∧
    ("/A" : String) ≠ "/%41" := by
  refine ⟨by decide, by decide, by decide⟩

/-! ## Range requests on files -/

theorem parseRangeSpec_some (s : Int) (ss es : List Char) (start e : Int)
    (hp : parseRangeSpec s ss es = some (start, e)) :
    0 ≤ start ∧ (start ≤ e ∨ e = s - 1) := by
  unfold parseRangeSpec at hp
  by_cases h₁ : ss = []
  · rw [if_pos h₁] at hp
    by_cases h₂ : es = []
    · rw [if_pos h₂] at hp; exact Option.noConfusion hp
    · rw [if_neg h₂] at hp
      rcases hpi : parseIntJS es with _ | suffix
      · rw [hpi] at hp; exact Option.noConfusion hp
      · simp only [hpi] at hp
        by_cases h₃ : suffix ≤ 0
        · rw [if_pos h₃] at hp; exact Option.noConfusion hp
        · rw [if_neg h₃] at hp
          have h' := Option.some.inj hp
          simp only [Prod.mk.injEq] at h'
          obtain ⟨h₄, h₅⟩ := h'
          subst h₄; subst h₅
          exact ⟨le_max_left 0 _, Or.inr rfl⟩
  · rw [if_neg h₁] at hp
    by_cases h₂ : es = []
    · rw [if_pos h₂] at hp
      rcases hpi : parseIntJS ss with _ | start'
      · rw [hpi] at hp; exact Option.noConfusion hp
      · simp only [hpi] at hp
        by_cases h₃ : start' < 0
        · rw [if_pos h₃] at hp; exact Option.noConfusion hp
        · rw [if_neg h₃] at hp
          have h' := Option.some.inj hp
          simp only [Prod.mk.injEq] at h'
          obtain ⟨h₄, h₅⟩ := h'
          subst h₄; subst h₅
          exact ⟨le_of_not_lt h₃, Or.inr rfl⟩
    · rw [if_neg h₂] at hp
      rcases hp1 : parseIntJS ss with _ | s₁
      · rw [hp1] at hp; exact Option.noConfusion hp
      · rcases hp2 : parseIntJS es with _ | e₁
        · simp only [hp1, hp2] at hp
          exact Option.noConfusion hp
        · simp only [hp1, hp2] at hp
          by_cases h₃ : (decide (s₁ < 0) || decide (e₁ < s₁)) = true
          · rw [if_pos h₃] at hp; exact Option.noConfusion hp
          · rw [if_neg h₃] at hp
            simp only [Bool.or_eq_true, decide_eq_true_eq, not_or, not_lt] at h₃
            have h' := Option.some.inj hp
            simp only [Prod.mk.injEq] at h'
            obtain ⟨h₄, h₅⟩ := h'
            subst h₄; subst h₅
            exact ⟨h₃.1, Or.inl h₃.2⟩

theorem parseRangeHeader_some (h : String) (s a b : Int)
    (hp : parseRangeHeader h s = some (a, b)) :
    0 ≤ a ∧ a ≤ b ∧ b < s := by
  unfold parseRangeHeader at hp
  rcases hpre : listPre ("bytes=".data) h.data with _ | _
  · simp only [hpre, Bool.not_false, eq_self_iff_true, if_true] at hp
    exact Option.noConfusion hp
  · simp only [hpre, Bool.not_true, Bool.false_eq_true, if_false] at hp
    by_cases hsp : h.data.drop 6 = []
    · rw [if_pos hsp] at hp; exact Option.noConfusion hp
    · rw [if_neg hsp] at hp
      rcases hidx : idxOf '-' (h.data.drop 6) with _ | hy
      · rw [hidx] at hp; exact Option.noConfusion hp
      · simp only [hidx] at hp
        rcases hps : parseRangeSpec s ((h.data.drop 6).take hy)
            ((h.data.drop 6).drop (hy + 1)) with _ | se
        · rw [hps] at hp; exact Option.noConfusion hp
        · obtain ⟨start, e⟩ := se
          simp only [hps] at hp
          obtain ⟨hs0, hse⟩ := parseRangeSpec_some s _ _ start e hps
          by_cases h₃ : start ≥ s
          · rw [if_pos h₃] at hp; exact Option.noConfusion hp
          · rw [if_neg h₃] at hp
            have h' := Option.some.inj hp
            simp only [Prod.mk.injEq] at h'
            obtain ⟨h₄, h₅⟩ := h'
            subst h₄; subst h₅
            push_neg at h₃
            refine ⟨hs0, ?_, ?_⟩
            · rcases hse with hle | heq
              · exact le_min hle (by omega)
              · rw [heq, min_self]; omega
            · calc min e (s - 1) ≤ s - 1 := min_le_right _ _
                _ < s := by omega

theorem sliceBytes_length (content : List Nat) (a b : Int)
    (h0 : 0 ≤ a) (hab : a ≤ b) (hb : b < (content.length : Int)) :
    ((sliceBytes content a b).length : Int) = b - a + 1 := by
  unfold sliceBytes
  rw [List.length_take, List.length_drop]
  omega

theorem parseRangeHeader_suffix_zero (s : Int) :
    parseRangeHeader "bytes=-0" s = none := rfl

/-- Spec-side definition, written from the spec's words for comparison
with `parseRangeHeader`: the single-range grammar the spec accepts —
`bytes=` followed by exactly one of `a-b`, `a-`, `-n`, i.e. one `-` and
decimal digits everywhere else, with at least one digit. -/
def specRangeWF (h : String) : Bool :=
  let l := h.data
  listPre ("bytes=".data) l &&
    (let spec := l.drop 6
     decide ((spec.filter (fun c => decide (c = '-'))).length = 1) &&
     spec.all (fun c => c.isDigit || decide (c = '-')) &&
     decide (1 < spec.length))

/-- A server state with a single one-byte file `/f`, for the concrete GET
conjunct of C6. -/
def c6State : SrvState :=
  { fs := [("/", FsNode.dir), ("/f", FsNode.file [42])], lm := LockState.init }

/-- C6 (amended): for a GET of an existing file with content `content`
(size `s = content.length`): `bytes=-0` yields 416 with
`Content-Range: bytes */s`; `bytes=0-0` on a size-1 file yields 206 with
exactly that one byte; *every* header the parser rejects — which per
`parseRangeHeader_multirange_counterexample` is not the same set as the
headers outside the spec's single-range grammar, and which includes every
accepted syntax whose start is at or past `s` — yields 416 with
`Content-Range: bytes */s`; and every header the parser accepts yields a
pair `a-b` with `0 ≤ a ≤ b < s` and a 206 with
`Content-Range: bytes a-b/s`, `Content-Length: b-a+1` and a body of
exactly `b-a+1` bytes.  The final conjunct runs the full `handleGet` on
a one-byte file. -/
theorem getFileResponse_range_cases :
    (∀ content : List Nat, getFileResponse content (some "bytes=-0") =
      { status := 416,
        contentRange := some ("bytes */" ++ toString (content.length : Int)) }) ∧
    (∀ content : List Nat, content.length = 1 →
      getFileResponse content (some "bytes=0-0") =
        { status := 206, contentRange := some "bytes 0-0/1",
          contentLength := some 1, bodyBytes := content }) ∧
    (∀ (content : List Nat) (h : String),
      parseRangeHeader h (content.length : Int) = none →
      getFileResponse content (some h) =
        { status := 416,
          contentRange := some ("bytes */" ++ toString (content.length : Int)) }) ∧
    (∀ (content : List Nat) (h : String) (a b : Int),
      parseRangeHeader h (content.length : Int) = some (a, b) →
      0 ≤ a ∧ a ≤ b ∧ b < (content.length : Int) ∧
      getFileResponse content (some h) =
        { status := 206,
          contentRange := some ("bytes " ++ toString a ++ "-" ++ toString b ++
            "/" ++ toString (content.length : Int)),
          contentLength := some (b - a + 1),
          bodyBytes := sliceBytes content a b } ∧
      ((sliceBytes content a b).length : Int) = b - a + 1) ∧
    handleGet c6State 0 "/f" (some "bytes=0-0") =
      some ({ status := 206, contentRange := some "bytes 0-0/1",
              contentLength := some 1, bodyBytes := [42] }, c6State) := by
  have h416 : ∀ (content : List Nat) (h : String),
      parseRangeHeader h (content.length : Int) = none →
      getFileResponse content (some h) =
        { status := 416,
          contentRange := some ("bytes */" ++ toString (content.length : Int)) } := by
    intro content h hp
    unfold getFileResponse
    simp only [hp]
  have h206 : ∀ (content : List Nat) (h : String) (a b : Int),
      parseRangeHeader h (content.length : Int) = some (a, b) →
      getFileResponse content (some h) =
        { status := 206,
          contentRange := some ("bytes " ++ toString a ++ "-" ++ toString b ++
            "/" ++ toString (content.length : Int)),
          contentLength := some (b - a + 1),
          bodyBytes := sliceBytes content a b } := by
    intro content h a b hp
    unfold getFileResponse
    simp only [hp]
  refine ⟨?_, ?_, h416, ?_, by decide⟩
  · intro content
    exact h416 content "bytes=-0" (parseRangeHeader_suffix_zero _)
  · intro content hlen
    have hp : parseRangeHeader "bytes=0-0" (content.length : Int) = some (0, 0) := by
      rw [hlen]; rfl
    have hslice : sliceBytes content 0 0 = content := by
      unfold sliceBytes
      have h1 : (0 : Int).toNat = 0 := rfl
      have h2 : ((0 : Int) - 0 + 1).toNat = 1 := rfl
      rw [h1, h2, List.drop_zero, ← hlen, List.take_length]
    rw [h206 content "bytes=0-0" 0 0 hp, hlen, hslice]
    rfl
  · intro content h a b hp
    obtain ⟨h0, hab, hb⟩ := parseRangeHeader_some h _ a b hp
    exact ⟨h0, hab, hb, h206 content h a b hp, sliceBytes_length content a b h0 hab hb⟩

/-- Witness for `getFileResponse_range_cases`: the size-1 conjunct at the
one-byte file `[42]`. -/
theorem getFileResponse_range_cases_witness :
    getFileResponse [42] (some "bytes=0-0") =
      { status := 206, contentRange := some "bytes 0-0/1",
        contentLength := some 1, bodyBytes := [42] } :=
  getFileResponse_range_cases.2.1 [42] rfl

/-- C6 (counterexample): `bytes=0-0,5-6` is outside the spec's
single-range grammar, so per the claim it should draw a 416 — but the
parser splits at the *first* `-` and reads both fields with JavaScript
`parseInt`, which stops at the first non-digit, so the header parses as
the range `0-0` and a GET of a two-byte file answers 206 with one byte. -/
theorem parseRangeHeader_multirange_counterexample :
    specRangeWF "bytes=0-0,5-6" = false ∧
    parseRangeHeader "bytes=0-0,5-6" 2 = some (0, 0) ∧
    getFileResponse [10, 20] (some "bytes=0-0,5-6") =
      { status := 206, contentRange := some "bytes 0-0/2",
        contentLength := some 1, bodyBytes := [10] } :=
  ⟨by decide, by decide, by decide⟩

/-! ## MKCOL -/

theorem lookupA_append_last {α : Type} (f : List (String × α)) (q : String) (v : α)
    (h : lookupA f q = none) : lookupA (f ++ [(q, v)]) q = some v := by
  induction f with
  | nil => simp [lookupA]
  | cons kv rest ih =>
    obtain ⟨k, w⟩ := kv
    by_cases hk : k = q
    · simp only [lookupA, if_pos hk] at h
      exact Option.noConfusion h
    · simp only [List.cons_append, lookupA, if_neg hk] at h ⊢
      exact ih h

theorem mkdirFold_last (segs : List (List Char)) (n : Nat) (fs fs' : FS)
    (h : (List.range (n + 1)).foldl (mkdirStep segs) (some fs) = some fs') :
    lookupA fs' (LockManager.mkPath (segs.take (n + 1))) = some FsNode.dir := by
  rw [List.range_succ, List.foldl_append, List.foldl_cons, List.foldl_nil] at h
  rcases hr : (List.range n).foldl (mkdirStep segs) (some fs) with _ | f
  · rw [hr] at h
    exact Option.noConfusion h
  · rw [hr] at h
    have hstep : mkdirStep segs (some f) n =
        match lookupA f (LockManager.mkPath (segs.take (n + 1))) with
        | some (FsNode.file _) => none
        | some FsNode.dir => some f
        | none => some (f ++ [(LockManager.mkPath (segs.take (n + 1)), FsNode.dir)]) := rfl
    rw [hstep] at h
    rcases hl : lookupA f (LockManager.mkPath (segs.take (n + 1))) with _ | node
    · rw [hl] at h
      have h' := Option.some.inj h
      subst h'
      exact lookupA_append_last f _ _ hl
    · rcases node with _ | c
      · rw [hl] at h
        have h' := Option.some.inj h
        subst h'
        exact hl
      · rw [hl] at h
        exact Option.noConfusion h

/-- A server state with an existing collection `/x`, for the C8
witness. -/
def c8WState : SrvState :=
  { fs := [("/", FsNode.dir), ("/x", FsNode.dir)], lm := LockState.init }

/-- C8 (amended): for every MKCOL on a request path that normalizes to
`p`: if `p` exists the status is 405 and the state is unchanged; if `p`
does not exist (and is not the root), the handler either throws (a file
stands in the way of `mkdirSync`) or answers 201 after
`mkdirSync(p, recursive: true)`, which creates every missing parent —
so a missing parent yields 201 with the parent silently created, never
the 409 the claim demands
(`handleMkCol_missing_parent_counterexample`). -/
theorem handleMkCol_characterization :
    (∀ (st : SrvState) (reqPath p : String),
      WebDAVServer.normalizePath reqPath = some p →
      fsExists st.fs p = true →
      handleMkCol st reqPath = some (405, st)) ∧
    (∀ (st : SrvState) (reqPath p : String),
      listPre ['/'] reqPath.data = true →
      WebDAVServer.normalizePath reqPath = some p →
      fsExists st.fs p = false → p ≠ "/" →
      (handleMkCol st reqPath = none ∨
        ∃ fs', fsMkdirRec st.fs p = some fs' ∧
          fsExists fs' p = true ∧
          handleMkCol st reqPath = some (201, { st with fs := fs' }))) := by
  constructor
  · intro st reqPath p hnorm hex
    unfold handleMkCol
    simp only [hnorm, hex, eq_self_iff_true, if_true]
  · intro st reqPath p hpre hnorm hex hroot
    unfold handleMkCol
    simp only [hnorm, hex, Bool.false_eq_true, if_false]
    rcases hmk : fsMkdirRec st.fs p with _ | fs'
    · exact Or.inl rfl
    · right
      refine ⟨fs', rfl, ?_, ?_⟩
      · obtain ⟨body, hg, rfl⟩ := normalizePath_shape reqPath p hpre hnorm
        have hbody : body ≠ [] := by
          intro hb
          subst hb
          exact hroot (by decide)
        have hsegs : LockManager.segsOf (LockManager.mkPath body) = body :=
          segsOf_mkPath body (goodSegs_valid body hg)
        simp only [fsMkdirRec, hsegs] at hmk
        rcases hlen : body.length with _ | n
        · exact absurd (List.length_eq_zero.mp hlen) hbody
        · rw [hlen] at hmk
          have hlook := mkdirFold_last body n st.fs fs' hmk
          have htake : body.take (n + 1) = body := by
            rw [← hlen]
            exact List.take_length body
          rw [htake] at hlook
          unfold fsExists
          rw [hlook]
          rfl
      · rfl

/-- Witness for `handleMkCol_characterization`: MKCOL `/a/b` on a fresh
filesystem lands in the 201 branch with `/a/b` present afterwards. -/
theorem handleMkCol_characterization_witness :
    handleMkCol { fs := FS.init, lm := LockState.init } "/a/b" = none ∨
    ∃ fs', fsMkdirRec FS.init "/a/b" = some fs' ∧ fsExists fs' "/a/b" = true ∧
      handleMkCol { fs := FS.init, lm := LockState.init } "/a/b" =
        some (201, { fs := fs', lm := LockState.init }) :=
  handleMkCol_characterization.2 { fs := FS.init, lm := LockState.init }
    "/a/b" "/a/b" (by decide) (by decide) (by decide) (by decide)

/-- C8 (counterexample): MKCOL `/a/b` on a fresh filesystem, whose parent
`/a` does not exist — the claim demands 409 with nothing created, but
`mkdirSync(..., recursive: true)` creates `/a` along the way and the
handler answers 201. -/
theorem handleMkCol_missing_parent_counterexample :
    fsExists FS.init "/a" = false ∧
    handleMkCol { fs := FS.init, lm := LockState.init } "/a/b" =
      some (201, { fs := [("/", FsNode.dir), ("/a", FsNode.dir), ("/a/b", FsNode.dir)],
                   lm := LockState.init }) :=
  ⟨by decide, by decide⟩

/-! ## PUT with an unparseable Content-Range -/

theorem eraseA_insertA_absent {α : Type} (l : List (String × α)) (k : String) (v : α)
    (h : lookupA l k = none) : eraseA (insertA l k v) k = l := by
  induction l with
  | nil => simp [insertA, eraseA]
  | cons kv rest ih =>
    obtain ⟨k', w⟩ := kv
    by_cases hk : k' = k
    · simp only [lookupA, if_pos hk] at h
      exact Option.noConfusion h
    · simp only [lookupA, if_neg hk] at h
      simp only [insertA, if_neg hk, eraseA, if_neg hk]
      rw [ih h]

/-- A server state with one file `/f` and no locks, for the C9
witness. -/
def c9State : SrvState :=
  { fs := [("/", FsNode.dir), ("/f", FsNode.file [1])], lm := LockState.init }

/-- C9: a PUT on a path that holds no WebDAV lock and no active stream,
whose `Content-Range` header does not parse, answers 416 and hands back
an unchanged state: the write stream lock taken at the top of the
handler is released again, so the stream table has no entry for the path
and the file content is untouched. -/
theorem handlePut_badContentRange :
    ∀ (st : SrvState) (now : Nat) (reqPath p : String)
      (lockTokenHdr ifHdr : Option String) (h : String) (body : List Nat),
      WebDAVServer.normalizePath reqPath = some p →
      LockManager.hasWebDAVLock st.lm now p none = false →
      LockManager.hasStreamingConflict st.lm p StreamType.write = false →
      lookupA st.lm.activeStreams (LockManager.normalizePath p) = none →
      parseContentRange h = none →
      handlePut st now reqPath lockTokenHdr ifHdr (some h) body = some (416, st) := by
  intro st now reqPath p lockTokenHdr ifHdr h body hnorm hlock hconf hstream hcr
  unfold handlePut
  simp only [hnorm, hlock, Bool.false_and, Bool.false_eq_true, if_false, hconf]
  have hacq : LockManager.acquireStreamLock st.lm p StreamType.write
      (extractLockToken lockTokenHdr ifHdr) =
      (true,
        { st.lm with
            activeStreams := insertA st.lm.activeStreams (LockManager.normalizePath p)
                               ⟨StreamType.write, 1, extractLockToken lockTokenHdr ifHdr⟩ }) := by
    unfold LockManager.acquireStreamLock
    simp only [hstream]
  simp only [hacq, hcr]
  have hrel : LockManager.releaseStreamLock
      { st.lm with
          activeStreams := insertA st.lm.activeStreams (LockManager.normalizePath p)
                             ⟨StreamType.write, 1, extractLockToken lockTokenHdr ifHdr⟩ }
      p = st.lm := by
    unfold LockManager.releaseStreamLock
    have hl : lookupA (insertA st.lm.activeStreams (LockManager.normalizePath p)
        ⟨StreamType.write, 1, extractLockToken lockTokenHdr ifHdr⟩)
        (LockManager.normalizePath p) =
        some ⟨StreamType.write, 1, extractLockToken lockTokenHdr ifHdr⟩ := by
      rw [lookupA_insertA]
      simp
    simp only [hl]
    rw [if_pos (le_refl 1)]
    rw [eraseA_insertA_absent st.lm.activeStreams _ _ hstream]
  rw [hrel]

/-- Witness for `handlePut_badContentRange`: PUT `/f` with the header
`bytes x` on the unlocked one-file state. -/
theorem handlePut_badContentRange_witness :
    handlePut c9State 0 "/f" none none (some "bytes x") [9] = some (416, c9State) :=
  handlePut_badContentRange c9State 0 "/f" "/f" none none "bytes x" [9]
    (by decide) (by decide) (by decide) (by decide) (by decide)

/-! ## GET on a collection -/

/-- An exclusive depth-infinity lock on the collection `/a`, for the C10
witness. -/
def c10Lock : WebDAVLock :=
  { token := "tD", path := "/a", owner := "o", timeout := 3600, created := 0,
    depth := LockDepth.infinity, scope := LockScope.exclusive }

/-- A server state whose collection `/a` is exclusively locked. -/
def c10State : SrvState :=
  { fs := [("/", FsNode.dir), ("/a", FsNode.dir)],
    lm := { locks := [("tD", c10Lock)], pathLocks := [("/a", ["tD"])],
            activeStreams := [] } }

/-- C10: a GET of an existing collection answers 200 with the HTML
listing of its members and leaves the state untouched — the collection
branch runs before every WebDAV-lock and stream-lock check, so no lock
hypothesis appears and no stream lock is taken. -/
theorem handleGet_collection_listing :
    ∀ (st : SrvState) (now : Nat) (reqPath p : String) (rangeHdr : Option String),
      WebDAVServer.normalizePath reqPath = some p →
      fsExists st.fs p = true →
      getType st.fs p = some FileKind.collection →
      handleGet st now reqPath rangeHdr =
        some ({ status := 200, contentType := some "text/html",
                bodyText := generateDirectoryListing p (getMembers st.fs p) }, st) := by
  intro st now reqPath p rangeHdr hnorm hex htype
  unfold handleGet
  simp only [hnorm, hex, Bool.not_true, Bool.false_eq_true, if_false, htype]

/-- Witness for `handleGet_collection_listing`: GET of the exclusively
locked collection `/a` still answers the 200 listing. -/
theorem handleGet_collection_listing_witness :
    handleGet c10State 0 "/a" none =
      some ({ status := 200, contentType := some "text/html",
              bodyText := generateDirectoryListing "/a" (getMembers c10State.fs "/a") },
        c10State) :=
  handleGet_collection_listing c10State 0 "/a" "/a" none
    (by decide) (by decide) (by decide)

/-! ## LOCK on a locked resource -/

/-- An exclusive depth-infinity lock held on `/a`, for C4. -/
def c4Lock : WebDAVLock :=
  { token := "tC", path := "/a", owner := "o1", timeout := 3600, created := 0,
    depth := LockDepth.infinity, scope := LockScope.exclusive }

/-- A server state whose existing resource `/a` is exclusively locked. -/
def c4State : SrvState :=
  { fs := [("/", FsNode.dir), ("/a", FsNode.dir)],
    lm := { locks := [("tC", c4Lock)], pathLocks := [("/a", ["tC"])],
            activeStreams := [] } }

/-- C4 (code bug): a LOCK request with a well-formed `lockinfo` body on
the existing path `/a`, which already holds a conflicting exclusive
lock: `canLock` is false, `createLock` throws, and the handler's
catch-all answers **500** — not the 423 the claim (and the spec's LOCK
section) requires. -/
theorem handleLock_conflict_returns_500 :
    LockManager.canLock c4State.lm 0 "/a" LockScope.exclusive = false ∧
    handleLock c4State 0 3600 "/a" true
      { owner := "o2", scope := LockScope.exclusive } LockDepth.infinity none
      "tNew" = some (500, c4State, none) :=
  ⟨by decide, by decide⟩

end Minidav
